import Mathlib

/-!
Shallow embedding of the camera-ticket analysis server
(`src/cameras_mcp_web.py`) and verification of its specification.

Modelling conventions:
* JSON week files are association lists in insertion order, mirroring
  Python dict iteration order; numeric counts are `Int`, ratios are `ℚ`.
* A camera record is a `CameraData` structure whose fields are `Option`s:
  `none` models an absent JSON key.  Subscript access `d["k"]` (which
  raises `KeyError` in Python) is `dictGet`, returning `Except`; the
  per-tool `try/except` that converts an exception into an error reply is
  the `Except.error` result of the whole function.  `d.get("k", {})` is
  `Option.getD`.
* Python `list.sort` (Timsort) is a stable sort; it is modelled by
  `List.insertionSort`, which is extensionally equal to any stable sort
  for a total transitive comparison.
* Python `round(x, 2)` (round half to even) is `round2` on `ℚ`.
* Python string comparison is code-point lexicographic, which is exactly
  the `LinearOrder String` order (lexicographic on the character list).
-/

/-- First value stored under a key in an association list (Python dict access
that succeeds). -/
def dictFind : List (String × α) → String → Option α
  | [], _ => none
  | p :: ps, k => if p.1 = k then some p.2 else dictFind ps k

/-- Dict lookup with a default, modelling Python `d.get(k, default)`. -/
def dictFindD (m : List (String × α)) (k : String) (d : α) : α :=
  (dictFind m k).getD d

/-- Python `d[k]` for a JSON object field that may be missing: `KeyError`
becomes `Except.error` carrying the key name. -/
def dictGet (o : Option α) (key : String) : Except String α :=
  match o with
  | some v => Except.ok v
  | none => Except.error key

@[simp] theorem okBind (a : α) (f : α → Except ε β) :
    (Except.ok a : Except ε α) >>= f = f a := rfl

@[simp] theorem errBind (e : ε) (f : α → Except ε β) :
    (Except.error e : Except ε α) >>= f = Except.error e := rfl

@[simp] theorem dictGet_some (v : α) (k : String) :
    dictGet (some v) k = Except.ok v := rfl

@[simp] theorem dictGet_none (k : String) :
    dictGet (none : Option α) k = Except.error k := rfl

/-- Daily mapping date → count, in insertion order. -/
abbrev DailyMap := List (String × Int)

/-- Values of a daily mapping, as Python `dict.values()`. -/
def mapValues (m : DailyMap) : List Int := m.map Prod.snd

/-- Python `sum(d.values())`. -/
def sumValues (m : DailyMap) : Int := (mapValues m).sum

/-- Python `if date not in d: d[date] = 0` followed by `d[date] += count`:
update in place when the key exists, otherwise append at the end
(dict insertion order). -/
def dictInsertAdd (m : DailyMap) (k : String) (c : Int) : DailyMap :=
  match dictFind m k with
  | some _ => m.map fun p => if p.1 = k then (p.1, p.2 + c) else p
  | none => m ++ [(k, c)]

/-- Additive merge of a period map into an accumulated daily map
(the `for date, count in ...: ...` loops of the source). -/
def mergeDaily (acc m : DailyMap) : DailyMap :=
  m.foldl (fun a p => dictInsertAdd a p.1 p.2) acc

/-- Round half to even to an integer, as Python `round`. -/
def roundHalfEven (q : ℚ) : ℤ :=
  if q - ⌊q⌋ < 1/2 then ⌊q⌋
  else if 1/2 < q - ⌊q⌋ then ⌊q⌋ + 1
  else if 2 ∣ ⌊q⌋ then ⌊q⌋ else ⌊q⌋ + 1

/-- Python `round(x, 2)`. -/
def round2 (q : ℚ) : ℚ := (roundHalfEven (q * 100) : ℚ) / 100

/-- Python `min(values)` for a non-empty list (`0` outside the guarded use). -/
def pyMin : List ℚ → ℚ
  | [] => 0
  | x :: xs => xs.foldl min x

/-- Python `max(values)` for a non-empty list. -/
def pyMax : List ℚ → ℚ
  | [] => 0
  | x :: xs => xs.foldl max x

/-- Python `statistics.mean`. -/
def pyMean (l : List ℚ) : ℚ := l.sum / l.length

/-- Python `statistics.median`: sort ascending, take the middle element, or
the average of the two middle elements for even length. -/
def pyMedian (l : List ℚ) : ℚ :=
  let s := List.insertionSort (· ≤ ·) l
  if l.length % 2 = 1 then s.getD (l.length / 2) 0
  else (s.getD (l.length / 2 - 1) 0 + s.getD (l.length / 2) 0) / 2

/-- Result record of `calculate_statistics` (`total` is the Python key for
the sum field). -/
structure Stats where
  mean : ℚ
  median : ℚ
  min : ℚ
  max : ℚ
  total : ℚ
deriving DecidableEq, Repr

/-- `calculate_statistics` from the source: all five fields are `0` for an
empty input, otherwise mean and median are rounded to 2 decimals and
min/max/sum are exact. -/
def calculate_statistics (values : List ℚ) : Stats :=
  if values.isEmpty then ⟨0, 0, 0, 0, 0⟩
  else
    { mean := round2 (pyMean values)
      median := round2 (pyMedian values)
      min := pyMin values
      max := pyMax values
      total := values.sum }

/-- One camera's record in one week file.  `Option` fields model possibly
missing JSON keys.  `infractions` and `frames` are read with
`.get(key, {})` in the source, the other fields with raising access. -/
structure CameraData where
  camera : Option String
  uptime : Option String
  used_storage : Option String
  total : Option Int
  infractions : Option DailyMap
  frames : Option DailyMap
deriving DecidableEq, Repr

/-- One week file: camera id → record, in insertion order. -/
abbrev WeekData := List (String × CameraData)

/-- The sequence of weekly fetch results the tools iterate over:
week ordinal paired with the resolver result (`none` models a week file
that was not found). -/
abbrev Periods := List (Nat × Option WeekData)

/-- The efficiency expression of `compare_cameras` (not rounded):
`infractions / frames * 100` guarded by `frames > 0`, else `0`. -/
def effExact (i f : Int) : ℚ :=
  if 0 < f then (i : ℚ) / (f : ℚ) * 100 else 0

/-- The efficiency expression of `analyze_camera_performance`,
the weekly summaries and the monthly summary: the same guarded ratio,
rounded to 2 decimals. -/
def effRounded (i f : Int) : ℚ :=
  if 0 < f then round2 ((i : ℚ) / (f : ℚ) * 100) else 0

/-! ## `analyze_camera_performance` (multi-week analysis) -/

/-- Accumulated state per camera in `all_data` of
`analyze_camera_performance`.  The `frames` list is initialised and never
appended to in the source; it is kept for fidelity. -/
structure CamAgg where
  name : String
  weeks : List Nat
  infractions : List Int
  frames : List Int
  daily_infractions : DailyMap
  daily_frames : DailyMap
deriving DecidableEq, Repr

/-- The filter `if params.camera_id and camera_id != params.camera_id:
continue`: an unset or empty-string filter passes everything (Python
truthiness of the string). -/
def passFilter (filt : Option String) (camera_id : String) : Bool :=
  match filt with
  | none => true
  | some f => (f == "") || (camera_id == f)

/-- Update the aggregate stored under a key (Python mutation of
`all_data[camera_id]`; keys are unique as in a dict). -/
def updateAgg (m : List (String × CamAgg)) (k : String) (f : CamAgg → CamAgg) :
    List (String × CamAgg) :=
  m.map fun p => if p.1 = k then (p.1, f p.2) else p

/-- The body of the camera loop of `analyze_camera_performance`:
initialise the entry on first sight (reading the `camera` display name),
append week ordinal and the stored `total`, and additively merge the
daily infraction and frame maps. -/
def processCamera (filt : Option String) (week : Nat)
    (all_data : List (String × CamAgg)) (camera_id : String) (cd : CameraData) :
    Except String (List (String × CamAgg)) :=
  if passFilter filt camera_id then do
    let acc ←
      match dictFind all_data camera_id with
      | some _ => Except.ok all_data
      | none => do
          let name ← dictGet cd.camera "camera"
          Except.ok (all_data ++ [(camera_id, ⟨name, [], [], [], [], []⟩)])
    let t ← dictGet cd.total "total"
    Except.ok (updateAgg acc camera_id fun a =>
      { a with
        weeks := a.weeks ++ [week]
        infractions := a.infractions ++ [t]
        daily_infractions := mergeDaily a.daily_infractions (cd.infractions.getD [])
        daily_frames := mergeDaily a.daily_frames (cd.frames.getD []) })
  else Except.ok all_data

/-- The week loop body of `analyze_camera_performance`: a week whose fetch
returned nothing is skipped (an empty dict is equally skipped by `if data:`
and contributes nothing to the loop either way). -/
def processWeek (filt : Option String) (all_data : List (String × CamAgg))
    (week : Nat) (d : Option WeekData) : Except String (List (String × CamAgg)) :=
  match d with
  | none => Except.ok all_data
  | some data => data.foldlM (fun acc p => processCamera filt week acc p.1 p.2) all_data

/-- The `all_data` accumulation of `analyze_camera_performance` over all
supplied weeks. -/
def collectAllData (filt : Option String) (ps : Periods) :
    Except String (List (String × CamAgg)) :=
  ps.foldlM (fun acc p => processWeek filt acc p.1 p.2) []

/-- Per-camera analysis record produced by `analyze_camera_performance`. -/
structure CamAnalysis where
  name : String
  weeks_analyzed : Nat
  infraction_stats : Stats
  daily_infraction_avg : ℚ
  daily_frame_avg : ℚ
  efficiency : ℚ
deriving DecidableEq, Repr

/-- The statistics block built for one camera from its aggregate. -/
def analyzeCamera (a : CamAgg) : CamAnalysis :=
  { name := a.name
    weeks_analyzed := a.weeks.length
    infraction_stats := calculate_statistics (a.infractions.map fun n => (n : ℚ))
    daily_infraction_avg :=
      if (mapValues a.daily_infractions).isEmpty then 0
      else round2 (pyMean ((mapValues a.daily_infractions).map fun n => (n : ℚ)))
    daily_frame_avg :=
      if (mapValues a.daily_frames).isEmpty then 0
      else round2 (pyMean ((mapValues a.daily_frames).map fun n => (n : ℚ)))
    efficiency := effRounded (sumValues a.daily_infractions) (sumValues a.daily_frames) }

/-- `analyze_camera_performance`: aggregate all weeks, fail with the
"no data" reply when nothing was collected, otherwise analyse each
aggregated camera in insertion order. -/
def analyze_camera_performance (ps : Periods) (filt : Option String) :
    Except String (List (String × CamAnalysis)) := do
  let all ← collectAllData filt ps
  if all.isEmpty then Except.error "No data found for the specified criteria"
  else Except.ok (all.map fun p => (p.1, analyzeCamera p.2))

/-! ## `compare_cameras` (per-week ranking) -/

/-- One row of the comparison built by `compare_cameras`. -/
structure Comparison where
  id : String
  name : String
  infractions : Int
  frames : Int
  efficiency : ℚ
  metric_value : ℚ
  storage : String
deriving DecidableEq, Repr

/-- The `metric_value` selection of `compare_cameras`: the `if/elif` chain
leaves the initial `0` for any metric outside the three supported kinds
(unreachable behind the input validator). -/
def metricValue (metric : String) (total_infractions total_frames : Int) : ℚ :=
  if metric = "infractions" then (total_infractions : ℚ)
  else if metric = "frames" then (total_frames : ℚ)
  else if metric = "efficiency" then effExact total_infractions total_frames
  else 0

/-- One iteration of the camera loop of `compare_cameras`: stored `total`
is the infraction count, frames are derived as the sum of the daily frame
map, efficiency uses the zero-guarded exact ratio. -/
def mkComparison (metric : String) (camera_id : String) (cd : CameraData) :
    Except String Comparison := do
  let total_infractions ← dictGet cd.total "total"
  let total_frames := sumValues (cd.frames.getD [])
  let name ← dictGet cd.camera "camera"
  let storage ← dictGet cd.used_storage "used_storage"
  Except.ok
    { id := camera_id
      name := name
      infractions := total_infractions
      frames := total_frames
      efficiency := effExact total_infractions total_frames
      metric_value := metricValue metric total_infractions total_frames
      storage := storage }

/-- Ordering used by `comparisons.sort(key=lambda x: x["metric_value"],
reverse=True)`: a stable descending sort places `x` before `y` when
`y.metric_value ≤ x.metric_value`. -/
def cmpRel (x y : Comparison) : Prop := y.metric_value ≤ x.metric_value

instance : DecidableRel cmpRel := fun x y =>
  inferInstanceAs (Decidable (y.metric_value ≤ x.metric_value))

instance : IsTotal Comparison cmpRel := ⟨fun a b => le_total b.metric_value a.metric_value⟩

instance : IsTrans Comparison cmpRel := ⟨fun _ _ _ h1 h2 => le_trans h2 h1⟩

/-- `compare_cameras` on one fetched week: error reply when the week is
missing or empty, otherwise build one comparison per camera in dict order
and stable-sort descending by the chosen metric. -/
def compare_cameras (d : Option WeekData) (metric : String) :
    Except String (List Comparison) :=
  match d with
  | none => Except.error "No data found"
  | some data =>
    if data.isEmpty then Except.error "No data found"
    else do
      let comparisons ← data.mapM fun p => mkComparison metric p.1 p.2
      Except.ok (List.insertionSort cmpRel comparisons)

/-- The pydantic `validate_metric` field validator of `CompareCamerasInput`:
raises before the tool body runs for an unsupported metric kind. -/
def validate_metric (v : String) : Except String String :=
  if v = "infractions" ∨ v = "frames" ∨ v = "efficiency" then Except.ok v
  else Except.error "Metric must be infractions, frames, or efficiency"

/-- The full request path: input validation happens before `compare_cameras`
touches any record data. -/
def compare_cameras_checked (d : Option WeekData) (metric : String) :
    Except String (List Comparison) := do
  let m ← validate_metric metric
  compare_cameras d m

/-! ## `search_infractions` -/

/-- The three optional criteria of `SearchInfractionsInput`. -/
structure SearchCriteria where
  date : Option String
  min_infractions : Option Int
  max_infractions : Option Int
deriving DecidableEq, Repr

/-- One search result row. -/
structure SearchMatch where
  week : Nat
  camera_id : String
  camera_name : String
  date : String
  infractions : Int
  frames : Int
deriving DecidableEq, Repr

/-- The date criterion check `if params.date and date != params.date:
continue`: an empty-string criterion is falsy in Python and filters
nothing. -/
def datePass (crit : Option String) (date : String) : Bool :=
  match crit with
  | none => true
  | some d0 => (d0 == "") || (date == d0)

/-- The `min_infractions` check (`is not None`, inclusive). -/
def minPass (crit : Option Int) (count : Int) : Bool :=
  match crit with
  | none => true
  | some m => decide (m ≤ count)

/-- The `max_infractions` check (`is not None`, inclusive). -/
def maxPass (crit : Option Int) (count : Int) : Bool :=
  match crit with
  | none => true
  | some m => decide (count ≤ m)

/-- Conjunction of the three criterion checks applied to one
(date, count) entry. -/
def matchFilter (c : SearchCriteria) (date : String) (count : Int) : Bool :=
  datePass c.date date && minPass c.min_infractions count &&
    maxPass c.max_infractions count

/-- The match dict appended for one surviving (date, count) entry: the
display name is read with raising access, frames with
`.get("frames", {}).get(date, 0)`. -/
def scanCamera (c : SearchCriteria) (week : Nat) (camera_id : String)
    (cd : CameraData) : Except String (List SearchMatch) :=
  ((cd.infractions.getD []).filter fun p => matchFilter c p.1 p.2).mapM fun p => do
    let name ← dictGet cd.camera "camera"
    Except.ok
      { week := week
        camera_id := camera_id
        camera_name := name
        date := p.1
        infractions := p.2
        frames := dictFindD (cd.frames.getD []) p.1 0 }

/-- The week loop body of `search_infractions`: a missing week is skipped,
matches of each camera are appended in dict order. -/
def scanWeek (c : SearchCriteria) (acc : List SearchMatch) (week : Nat)
    (d : Option WeekData) : Except String (List SearchMatch) :=
  match d with
  | none => Except.ok acc
  | some data =>
    data.foldlM (fun a p => do
      let ms ← scanCamera c week p.1 p.2
      Except.ok (a ++ ms)) acc

/-- Ordering of `matches.sort(key=lambda x: (x["date"], -x["infractions"]))`:
ascending lexicographic date, descending infraction count as tie break. -/
def searchRel (a b : SearchMatch) : Prop :=
  a.date < b.date ∨ (a.date = b.date ∧ b.infractions ≤ a.infractions)

instance : DecidableRel searchRel := fun a b =>
  inferInstanceAs (Decidable (a.date < b.date ∨
    (a.date = b.date ∧ b.infractions ≤ a.infractions)))

instance : IsTotal SearchMatch searchRel :=
  ⟨by
    intro a b
    rcases lt_trichotomy a.date b.date with h | h | h
    · exact Or.inl (Or.inl h)
    · rcases le_total b.infractions a.infractions with hi | hi
      · exact Or.inl (Or.inr ⟨h, hi⟩)
      · exact Or.inr (Or.inr ⟨h.symm, hi⟩)
    · exact Or.inr (Or.inl h)⟩

instance : IsTrans SearchMatch searchRel :=
  ⟨by
    intro a b c h1 h2
    rcases h1 with h1 | ⟨h1e, h1i⟩
    · rcases h2 with h2 | ⟨h2e, _⟩
      · exact Or.inl (lt_trans h1 h2)
      · exact Or.inl (lt_of_lt_of_le h1 (le_of_eq h2e))
    · rcases h2 with h2 | ⟨h2e, h2i⟩
      · exact Or.inl (lt_of_le_of_lt (le_of_eq h1e) h2)
      · exact Or.inr ⟨h1e.trans h2e, le_trans h2i h1i⟩⟩

/-- `search_infractions`: scan every supplied week, then sort by
(date ascending, infractions descending). -/
def search_infractions (ps : Periods) (c : SearchCriteria) :
    Except String (List SearchMatch) := do
  let found ← ps.foldlM (fun a p => scanWeek c a p.1 p.2) []
  Except.ok (List.insertionSort searchRel found)

/-! ## `get_monthly_report` -/

/-- Per-camera monthly rollup: the infraction total accumulates the stored
weekly `total` fields, the frame total accumulates the daily frame maps. -/
structure CamMonth where
  name : String
  total_infractions : Int
  total_frames : Int
  weeks_active : Int
deriving DecidableEq, Repr

/-- Per-date totals across all cameras. -/
structure DayTotals where
  infractions : Int
  frames : Int
deriving DecidableEq, Repr

/-- One entry of `week_summaries`. -/
structure WeekSummary where
  week : Nat
  infractions : Int
  frames : Int
deriving DecidableEq, Repr

/-- The `month_data` rollup of `get_monthly_report`. -/
structure MonthData where
  total_infractions : Int
  total_frames : Int
  cameras : List (String × CamMonth)
  daily_totals : List (String × DayTotals)
  week_summaries : List WeekSummary
deriving DecidableEq, Repr

/-- State threaded through the camera loop of one week of
`get_monthly_report`. -/
structure MonthAcc where
  cameras : List (String × CamMonth)
  daily_totals : List (String × DayTotals)
  week_infractions : Int
  week_frames : Int
deriving DecidableEq, Repr

/-- Update the camera entry stored under a key (dict mutation, unique keys). -/
def updateCamMonth (m : List (String × CamMonth)) (k : String)
    (f : CamMonth → CamMonth) : List (String × CamMonth) :=
  m.map fun p => if p.1 = k then (p.1, f p.2) else p

/-- `daily_totals[date]["infractions"] += count` with zero initialisation on
first sight of the date. -/
def addDailyInfraction (dt : List (String × DayTotals)) (date : String)
    (count : Int) : List (String × DayTotals) :=
  match dictFind dt date with
  | some _ =>
    dt.map fun p =>
      if p.1 = date then (p.1, { p.2 with infractions := p.2.infractions + count })
      else p
  | none => dt ++ [(date, { infractions := count, frames := 0 })]

/-- `daily_totals[date]["frames"] += count` with zero initialisation. -/
def addDailyFrame (dt : List (String × DayTotals)) (date : String)
    (count : Int) : List (String × DayTotals) :=
  match dictFind dt date with
  | some _ =>
    dt.map fun p =>
      if p.1 = date then (p.1, { p.2 with frames := p.2.frames + count })
      else p
  | none => dt ++ [(date, { infractions := 0, frames := count })]

/-- The camera loop body of `get_monthly_report`: initialise the camera on
first sight (reading its display name), add the stored `total` to the
camera's infraction total, bump `weeks_active`, fold the daily infraction
map into `daily_totals` and the week counter, then the daily frame map into
`daily_totals`, the week counter and the camera's frame total. -/
def processMonthCamera (acc : MonthAcc) (camera_id : String) (cd : CameraData) :
    Except String MonthAcc := do
  let cams ←
    match dictFind acc.cameras camera_id with
    | some _ => Except.ok acc.cameras
    | none => do
        let name ← dictGet cd.camera "camera"
        Except.ok (acc.cameras ++
          [(camera_id, ⟨name, 0, 0, 0⟩)])
  let t ← dictGet cd.total "total"
  let cams := updateCamMonth cams camera_id fun cm =>
    { cm with
      total_infractions := cm.total_infractions + t
      weeks_active := cm.weeks_active + 1 }
  let infr := cd.infractions.getD []
  let daily1 := infr.foldl (fun dt p => addDailyInfraction dt p.1 p.2) acc.daily_totals
  let wi := acc.week_infractions + sumValues infr
  let frames := cd.frames.getD []
  let daily2 := frames.foldl (fun dt p => addDailyFrame dt p.1 p.2) daily1
  let wf := acc.week_frames + sumValues frames
  let cams := updateCamMonth cams camera_id fun cm =>
    { cm with total_frames := cm.total_frames + sumValues frames }
  Except.ok ⟨cams, daily2, wi, wf⟩

/-- The week loop body of `get_monthly_report`: `if not data: continue`
skips a missing or empty week entirely, in particular appending no weekly
summary for it. -/
def processMonthWeek (md : MonthData) (week : Nat) (d : Option WeekData) :
    Except String MonthData :=
  match d with
  | none => Except.ok md
  | some data =>
    if data.isEmpty then Except.ok md
    else do
      let acc ← data.foldlM (fun a p => processMonthCamera a p.1 p.2)
        ⟨md.cameras, md.daily_totals, 0, 0⟩
      Except.ok
        { total_infractions := md.total_infractions + acc.week_infractions
          total_frames := md.total_frames + acc.week_frames
          cameras := acc.cameras
          daily_totals := acc.daily_totals
          week_summaries := md.week_summaries ++ [⟨week, acc.week_infractions, acc.week_frames⟩] }

/-- The `month_data` aggregation of `get_monthly_report` over all supplied
weeks. -/
def get_monthly_report (ps : Periods) : Except String MonthData :=
  ps.foldlM (fun md p => processMonthWeek md p.1 p.2) ⟨0, 0, [], [], []⟩

/-- Efficiency of one weekly summary line of the monthly report. -/
def week_summary_efficiency (s : WeekSummary) : ℚ :=
  effRounded s.infractions s.frames

/-- Overall efficiency of the monthly summary. -/
def monthly_summary_efficiency (md : MonthData) : ℚ :=
  effRounded md.total_infractions md.total_frames

/-! ## Association-list (dict) lemmas -/

theorem dictFind_append_of_none {m1 : List (String × α)} {d : String}
    (h : dictFind m1 d = none) (m2 : List (String × α)) :
    dictFind (m1 ++ m2) d = dictFind m2 d := by
  induction m1 with
  | nil => simp
  | cons p ps ih =>
    by_cases hp : p.1 = d
    · simp [dictFind, hp] at h
    · simp [dictFind, hp] at h ⊢
      exact ih h

theorem dictFind_append_of_some {m1 : List (String × α)} {d : String} {v : α}
    (h : dictFind m1 d = some v) (m2 : List (String × α)) :
    dictFind (m1 ++ m2) d = some v := by
  induction m1 with
  | nil => simp [dictFind] at h
  | cons p ps ih =>
    by_cases hp : p.1 = d
    · simp [dictFind, hp] at h ⊢; exact h
    · simp [dictFind, hp] at h ⊢; exact ih h

theorem dictFind_update_ne {m : DailyMap} {k d : String} (v : Int) (hne : d ≠ k) :
    dictFind (m.map fun p => if p.1 = k then (p.1, p.2 + v) else p) d
      = dictFind m d := by
  have hkd : ¬k = d := fun hh => hne hh.symm
  induction m with
  | nil => rfl
  | cons p ps ih =>
    by_cases hpk : p.1 = k
    · simp [dictFind, hpk, hkd, ih]
    · by_cases hpd : p.1 = d
      · simp [dictFind, hpk, hpd, hne, ih]
      · simp [dictFind, hpk, hpd, ih]

theorem dictFind_update_eq {m : DailyMap} {k : String} (v : Int) :
    dictFind (m.map fun p => if p.1 = k then (p.1, p.2 + v) else p) k
      = (dictFind m k).map (· + v) := by
  induction m with
  | nil => rfl
  | cons p ps ih =>
    by_cases hpk : p.1 = k
    · simp [dictFind, hpk]
    · simp [dictFind, hpk, ih]

theorem dictFind_eq_none_of_not_mem {m : List (String × α)} {k : String}
    (h : k ∉ m.map Prod.fst) : dictFind m k = none := by
  induction m with
  | nil => rfl
  | cons p ps ih =>
    simp only [List.map_cons, List.mem_cons] at h
    push_neg at h
    have : p.1 ≠ k := fun hh => h.1 hh.symm
    simp [dictFind, this, ih h.2]

/-- One `d[date] += count` step changes the stored value at exactly `date`,
by exactly `count`. -/
theorem dictFindD_dictInsertAdd (m : DailyMap) (k d : String) (v : Int) :
    dictFindD (dictInsertAdd m k v) d 0
      = dictFindD m d 0 + (if d = k then v else 0) := by
  unfold dictInsertAdd
  cases hk : dictFind m k with
  | none =>
    by_cases hdk : d = k
    · subst hdk
      rw [dictFindD, dictFind_append_of_none hk]
      simp [dictFindD, dictFind, hk]
    · rw [dictFindD]
      cases hd : dictFind m d with
      | none =>
        rw [dictFind_append_of_none hd]
        have : k ≠ d := fun hh => hdk hh.symm
        simp [dictFind, this, dictFindD, hd, hdk]
      | some w =>
        rw [dictFind_append_of_some hd]
        simp [dictFindD, hd, hdk]
  | some w =>
    by_cases hdk : d = k
    · subst hdk
      rw [dictFindD, dictFind_update_eq]
      simp [dictFindD, hk]
    · rw [dictFindD, dictFind_update_ne v hdk]
      simp [dictFindD, hdk]

/-- Additive merge: folding a period's daily map (with distinct dates, as in
a JSON object) into an accumulator adds the period's count for every date. -/
theorem dictFindD_mergeDaily (m : DailyMap) (hm : (m.map Prod.fst).Nodup) :
    ∀ (acc : DailyMap) (d : String),
      dictFindD (mergeDaily acc m) d 0 = dictFindD acc d 0 + dictFindD m d 0 := by
  induction m with
  | nil =>
    intro acc d
    simp [mergeDaily, dictFindD, dictFind]
  | cons p ps ih =>
    intro acc d
    simp only [List.map_cons, List.nodup_cons] at hm
    have hstep : mergeDaily acc (p :: ps) = mergeDaily (dictInsertAdd acc p.1 p.2) ps := rfl
    rw [hstep, ih hm.2, dictFindD_dictInsertAdd]
    by_cases hd : d = p.1
    · have h0 : dictFind ps d = none := by
        rw [hd]; exact dictFind_eq_none_of_not_mem hm.1
      rw [hd] at h0
      simp only [dictFindD, dictFind, hd, if_pos rfl, h0]
      simp
    · have h1 : ¬p.1 = d := fun hh => hd hh.symm
      simp [dictFindD, dictFind, hd, h1]

/-! ## Rounding lemmas -/

theorem roundHalfEven_intCast (k : ℤ) : roundHalfEven (k : ℚ) = k := by
  simp [roundHalfEven, Int.floor_intCast]

theorem roundHalfEven_le_of_le {a b : ℚ} (h : a ≤ b) :
    roundHalfEven a ≤ roundHalfEven b := by
  have hfl : ⌊a⌋ ≤ ⌊b⌋ := Int.floor_le_floor h
  rcases lt_or_eq_of_le hfl with hlt | heq
  · have h1 : roundHalfEven a ≤ ⌊a⌋ + 1 := by
      unfold roundHalfEven; split_ifs <;> omega
    have h2 : ⌊b⌋ ≤ roundHalfEven b := by
      unfold roundHalfEven; split_ifs <;> omega
    omega
  · have hfa : (⌊a⌋ : ℚ) ≤ a := Int.floor_le a
    have hfb : b - ⌊b⌋ ≥ a - ⌊a⌋ := by rw [← heq]; linarith
    unfold roundHalfEven
    rw [← heq]
    split_ifs with c1 c2 c3 c4 c5 c6 c7 <;> first
      | omega
      | (exfalso; rw [← heq] at *; linarith)

theorem round2_hundredth (k : ℤ) : round2 ((k : ℚ) / 100) = (k : ℚ) / 100 := by
  unfold round2
  have h : (k : ℚ) / 100 * 100 = (k : ℚ) := by field_simp
  rw [h, roundHalfEven_intCast]

theorem round2_mono {a b : ℚ} (h : a ≤ b) : round2 a ≤ round2 b := by
  unfold round2
  have h1 : roundHalfEven (a * 100) ≤ roundHalfEven (b * 100) :=
    roundHalfEven_le_of_le (by linarith)
  have h2 : ((roundHalfEven (a * 100) : ℤ) : ℚ) ≤ ((roundHalfEven (b * 100) : ℤ) : ℚ) := by
    exact_mod_cast h1
  linarith

/-! ## Extraction lemma for `mkComparison` -/

theorem mkComparison_ok {metric cid : String} {cd : CameraData} {c : Comparison}
    (h : mkComparison metric cid cd = Except.ok c) :
    c.id = cid ∧ cd.total = some c.infractions ∧ cd.camera = some c.name ∧
    cd.used_storage = some c.storage ∧
    c.frames = sumValues (cd.frames.getD []) ∧
    c.efficiency = effExact c.infractions c.frames ∧
    c.metric_value = metricValue metric c.infractions c.frames := by
  unfold mkComparison at h
  cases ht : cd.total with
  | none => rw [ht] at h; simp at h
  | some t =>
    rw [ht] at h
    cases hc : cd.camera with
    | none => rw [hc] at h; simp at h
    | some nm =>
      rw [hc] at h
      cases hs : cd.used_storage with
      | none => rw [hs] at h; simp at h
      | some st =>
        rw [hs] at h
        simp only [dictGet_some, okBind, Except.ok.injEq] at h
        subst h
        simp

/-! ## Claim C2: additive merge -/

/-- **C2**: merging is additive.  For daily maps with distinct dates (JSON
object keys), folding a period's map into an accumulated rollup map adds the
period's count at every date; in particular a device seen in two periods
whose infraction maps both contain a date `d` ends up with the sum of the
two counts at `d` in its rollup, as computed by the `all_data` accumulation
of `analyze_camera_performance`. -/
theorem merge_is_additive :
    (∀ (m : DailyMap), (m.map Prod.fst).Nodup → ∀ (acc : DailyMap) (d : String),
        dictFindD (mergeDaily acc m) d 0 = dictFindD acc d 0 + dictFindD m d 0)
  ∧ ∀ (w1 w2 : Nat) (cid n1 n2 : String) (u1 u2 s1 s2 : Option String)
      (t1 t2 : Int) (m1 m2 : DailyMap) (f1 f2 : Option DailyMap)
      (d : String) (c1 c2 : Int),
      (m1.map Prod.fst).Nodup → (m2.map Prod.fst).Nodup →
      dictFind m1 d = some c1 → dictFind m2 d = some c2 →
      collectAllData none
        [(w1, some [(cid, ⟨some n1, u1, s1, some t1, some m1, f1⟩)]),
         (w2, some [(cid, ⟨some n2, u2, s2, some t2, some m2, f2⟩)])]
      = Except.ok [(cid,
          ⟨n1, [w1, w2], [t1, t2], [],
           mergeDaily (mergeDaily [] m1) m2,
           mergeDaily (mergeDaily [] (f1.getD [])) (f2.getD [])⟩)]
      ∧ dictFindD (mergeDaily (mergeDaily [] m1) m2) d 0 = c1 + c2 := by
  constructor
  · exact fun m hm acc d => dictFindD_mergeDaily m hm acc d
  · intro w1 w2 cid n1 n2 u1 u2 s1 s2 t1 t2 m1 m2 f1 f2 d c1 c2 hm1 hm2 hc1 hc2
    constructor
    · simp [collectAllData, processWeek, processCamera, passFilter, List.foldlM,
        dictFind, updateAgg]
    · rw [dictFindD_mergeDaily m2 hm2, dictFindD_mergeDaily m1 hm1]
      simp [dictFindD, dictFind, hc1, hc2]

/-- Witness for C2 at the spec's own example: infraction maps
`{"2024-01-01": 3}` and `{"2024-01-01": 5}` for the same device merge to
`{"2024-01-01": 8}`. -/
theorem merge_is_additive_witness :
    collectAllData none
      [(1, some [("D", ⟨some "Cam D", none, none, some 3, some [("2024-01-01", 3)], none⟩)]),
       (2, some [("D", ⟨some "Cam D", none, none, some 5, some [("2024-01-01", 5)], none⟩)])]
    = Except.ok [("D",
        ⟨"Cam D", [1, 2], [3, 5], [],
         mergeDaily (mergeDaily [] [("2024-01-01", 3)]) [("2024-01-01", 5)],
         mergeDaily (mergeDaily [] (Option.getD none [])) (Option.getD none [])⟩)]
    ∧ dictFindD (mergeDaily (mergeDaily [] [("2024-01-01", 3)]) [("2024-01-01", 5)])
        "2024-01-01" 0 = 3 + 5 :=
  merge_is_additive.2 1 2 "D" "Cam D" "Cam D" none none none none 3 5
    [("2024-01-01", 3)] [("2024-01-01", 5)] none none "2024-01-01" 3 5
    (by simp) (by simp) (by simp [dictFind]) (by simp [dictFind])

/-! ## Claim C1: the efficiency zero-guard -/

/-- **C1** (amended): at every scope where efficiency is computed
(per-week comparison, multi-week analysis, weekly summaries, monthly
summary), a zero frame total yields efficiency exactly 0 and no division is
evaluated; for positive frames the per-week comparison returns the exact
ratio `infractions / frames * 100`, while the other three scopes return
that ratio rounded to two decimal places. -/
theorem efficiency_zero_guard :
    (∀ i f : Int, f = 0 → effExact i f = 0 ∧ effRounded i f = 0)
  ∧ (∀ i f : Int, 0 < f →
      effExact i f = (i : ℚ) / (f : ℚ) * 100
      ∧ effRounded i f = round2 ((i : ℚ) / (f : ℚ) * 100))
  ∧ (∀ a : CamAgg, (analyzeCamera a).efficiency
      = effRounded (sumValues a.daily_infractions) (sumValues a.daily_frames))
  ∧ (∀ (metric cid : String) (cd : CameraData) (c : Comparison),
      mkComparison metric cid cd = Except.ok c →
      c.efficiency = effExact c.infractions c.frames)
  ∧ (∀ s : WeekSummary, week_summary_efficiency s = effRounded s.infractions s.frames)
  ∧ (∀ md : MonthData, monthly_summary_efficiency md
      = effRounded md.total_infractions md.total_frames) := by
  refine ⟨?_, ?_, fun a => rfl, ?_, fun s => rfl, fun md => rfl⟩
  · intro i f hf
    subst hf
    simp [effExact, effRounded]
  · intro i f hf
    simp [effExact, effRounded, hf]
  · intro metric cid cd c h
    exact (mkComparison_ok h).2.2.2.2.2.1

/-- Witness for C1: zero frames give efficiency 0 in both forms, and with
1 infraction over 4 frames the comparison scope yields exactly 25. -/
theorem efficiency_zero_guard_witness :
    (effExact 7 0 = 0 ∧ effRounded 7 0 = 0)
    ∧ (effExact 1 4 = (1 : ℚ) / (4 : ℚ) * 100
       ∧ effRounded 1 4 = round2 ((1 : ℚ) / (4 : ℚ) * 100)) :=
  ⟨efficiency_zero_guard.1 7 0 rfl, efficiency_zero_guard.2.1 1 4 (by norm_num)⟩

/-- Input refuting C1 as stated: one device, one week, 1 infraction and 3
frames on the same day. -/
def effCexPeriods : Periods :=
  [(1, some [("1", ⟨some "Cam", none, none, some 1,
      some [("2024-01-01", 1)], some [("2024-01-01", 3)]⟩)])]

/-- Counterexample to C1 as stated: on `effCexPeriods` the multi-week
analysis has a positive frame total (3) but reports efficiency `33.33`,
which is not `1/3 * 100`; the rounding to two decimals is part of the
computation. -/
theorem efficiency_not_exact_in_analysis :
    analyze_camera_performance effCexPeriods none
      = Except.ok [("1",
          { name := "Cam", weeks_analyzed := 1,
            infraction_stats := ⟨1, 1, 1, 1, 1⟩,
            daily_infraction_avg := 1, daily_frame_avg := 3,
            efficiency := 3333/100 })]
    ∧ sumValues [("2024-01-01", 3)] = 3 ∧ (0 : Int) < 3
    ∧ (3333/100 : ℚ) ≠ (1 : ℚ) / (3 : ℚ) * 100 := by
  refine ⟨?_, by simp [sumValues, mapValues], by norm_num, by norm_num⟩
  simp [analyze_camera_performance, effCexPeriods, collectAllData, processWeek,
    processCamera, passFilter, List.foldlM, dictFind, updateAgg, mergeDaily,
    dictInsertAdd, analyzeCamera, calculate_statistics, pyMean, pyMedian,
    pyMin, pyMax, sumValues, mapValues, effRounded, round2, roundHalfEven]
  norm_num [Int.fract]

/-! ## Min / max / mean / median lemmas for the statistics calculator -/

theorem foldl_min_le_acc : ∀ (l : List ℚ) (a : ℚ), l.foldl min a ≤ a
  | [], a => le_refl a
  | x :: xs, a => le_trans (foldl_min_le_acc xs (min a x)) (min_le_left a x)

theorem foldl_min_le_mem : ∀ (l : List ℚ) (a v : ℚ), v ∈ l → l.foldl min a ≤ v := by
  intro l
  induction l with
  | nil => intro a v hv; simp at hv
  | cons x xs ih =>
    intro a v hv
    rcases List.mem_cons.mp hv with h | h
    · subst h
      exact le_trans (foldl_min_le_acc xs (min a v)) (min_le_right a v)
    · exact ih (min a x) v h

theorem foldl_min_mem : ∀ (l : List ℚ) (a : ℚ), l.foldl min a = a ∨ l.foldl min a ∈ l := by
  intro l
  induction l with
  | nil => intro a; left; rfl
  | cons x xs ih =>
    intro a
    rcases ih (min a x) with h | h
    · rcases min_choice a x with hm | hm
      · left; rw [List.foldl_cons, h, hm]
      · right; rw [List.foldl_cons, h, hm]; exact List.mem_cons_self x xs
    · right; exact List.mem_cons_of_mem x h

theorem acc_le_foldl_max : ∀ (l : List ℚ) (a : ℚ), a ≤ l.foldl max a
  | [], a => le_refl a
  | x :: xs, a => le_trans (le_max_left a x) (acc_le_foldl_max xs (max a x))

theorem mem_le_foldl_max : ∀ (l : List ℚ) (a v : ℚ), v ∈ l → v ≤ l.foldl max a := by
  intro l
  induction l with
  | nil => intro a v hv; simp at hv
  | cons x xs ih =>
    intro a v hv
    rcases List.mem_cons.mp hv with h | h
    · subst h
      exact le_trans (le_max_right a v) (acc_le_foldl_max xs (max a v))
    · exact ih (max a x) v h

theorem foldl_max_mem : ∀ (l : List ℚ) (a : ℚ), l.foldl max a = a ∨ l.foldl max a ∈ l := by
  intro l
  induction l with
  | nil => intro a; left; rfl
  | cons x xs ih =>
    intro a
    rcases ih (max a x) with h | h
    · rcases max_choice a x with hm | hm
      · left; rw [List.foldl_cons, h, hm]
      · right; rw [List.foldl_cons, h, hm]; exact List.mem_cons_self x xs
    · right; exact List.mem_cons_of_mem x h

theorem pyMin_le {l : List ℚ} (v : ℚ) (hv : v ∈ l) : pyMin l ≤ v := by
  cases l with
  | nil => simp at hv
  | cons x xs =>
    rcases List.mem_cons.mp hv with h | h
    · subst h; exact foldl_min_le_acc xs v
    · exact foldl_min_le_mem xs x v h

theorem le_pyMax {l : List ℚ} (v : ℚ) (hv : v ∈ l) : v ≤ pyMax l := by
  cases l with
  | nil => simp at hv
  | cons x xs =>
    rcases List.mem_cons.mp hv with h | h
    · subst h; exact acc_le_foldl_max xs v
    · exact mem_le_foldl_max xs x v h

theorem pyMin_mem {l : List ℚ} (hl : l ≠ []) : pyMin l ∈ l := by
  cases l with
  | nil => exact absurd rfl hl
  | cons x xs =>
    rcases foldl_min_mem xs x with h | h
    · rw [pyMin, h]; exact List.mem_cons_self x xs
    · exact List.mem_cons_of_mem x h

theorem pyMax_mem {l : List ℚ} (hl : l ≠ []) : pyMax l ∈ l := by
  cases l with
  | nil => exact absurd rfl hl
  | cons x xs =>
    rcases foldl_max_mem xs x with h | h
    · rw [pyMax, h]; exact List.mem_cons_self x xs
    · exact List.mem_cons_of_mem x h

theorem mul_length_le_sum {l : List ℚ} {a : ℚ} (h : ∀ v ∈ l, a ≤ v) :
    a * l.length ≤ l.sum := by
  induction l with
  | nil => simp
  | cons x xs ih =>
    have hx : a ≤ x := h x (List.mem_cons_self x xs)
    have hxs : a * xs.length ≤ xs.sum := ih fun v hv => h v (List.mem_cons_of_mem x hv)
    simp only [List.length_cons, List.sum_cons]
    push_cast
    nlinarith

theorem sum_le_mul_length {l : List ℚ} {a : ℚ} (h : ∀ v ∈ l, v ≤ a) :
    l.sum ≤ a * l.length := by
  induction l with
  | nil => simp
  | cons x xs ih =>
    have hx : x ≤ a := h x (List.mem_cons_self x xs)
    have hxs : xs.sum ≤ a * xs.length := ih fun v hv => h v (List.mem_cons_of_mem x hv)
    simp only [List.length_cons, List.sum_cons]
    push_cast
    nlinarith

theorem pyMean_bounds {l : List ℚ} (hl : l ≠ []) :
    pyMin l ≤ pyMean l ∧ pyMean l ≤ pyMax l := by
  have hlen : (0 : ℚ) < l.length := by
    have : 0 < l.length := List.length_pos.mpr hl
    exact_mod_cast this
  constructor
  · rw [pyMean, le_div_iff₀ hlen]
    exact mul_length_le_sum fun v hv => pyMin_le v hv
  · rw [pyMean, div_le_iff₀ hlen]
    exact sum_le_mul_length fun v hv => le_pyMax v hv

theorem pyMedian_bounds {l : List ℚ} (hl : l ≠ []) :
    pyMin l ≤ pyMedian l ∧ pyMedian l ≤ pyMax l := by
  set s := List.insertionSort (· ≤ ·) l with hs
  have hlen : s.length = l.length := List.length_insertionSort _ l
  have hmem : ∀ i : Nat, i < l.length → s.getD i 0 ∈ l := by
    intro i hi
    have hi2 : i < s.length := by rw [hlen]; exact hi
    rw [List.getD_eq_getElem s 0 hi2]
    exact (List.mem_insertionSort (· ≤ ·)).mp (s.getElem_mem hi2)
  have hpos : 0 < l.length := List.length_pos.mpr hl
  unfold pyMedian
  rw [← hs]
  by_cases hodd : l.length % 2 = 1
  · rw [if_pos hodd]
    have hin : s.getD (l.length / 2) 0 ∈ l := hmem _ (Nat.div_lt_self hpos one_lt_two)
    exact ⟨pyMin_le _ hin, le_pyMax _ hin⟩
  · rw [if_neg hodd]
    have h2 : 2 ≤ l.length := by omega
    have ha : s.getD (l.length / 2 - 1) 0 ∈ l := by
      apply hmem
      omega
    have hb : s.getD (l.length / 2) 0 ∈ l := hmem _ (Nat.div_lt_self hpos one_lt_two)
    constructor
    · have h1 := pyMin_le _ ha
      have h2 := pyMin_le _ hb
      linarith
    · have h1 := le_pyMax _ ha
      have h2 := le_pyMax _ hb
      linarith

/-! ## Claim C5: the statistics calculator -/

/-- **C5** (amended): `calculate_statistics` is pure; on the empty sequence
all five fields are exactly 0; on any non-empty sequence the sum is exact,
min and max are exact (members of the sequence bounding every element), and
mean and median are the true mean/median rounded to two decimals.  The
bounds `min ≤ mean ≤ max` and `min ≤ median ≤ max` hold for the rounded
values whenever min and max are integer multiples of 1/100 (in particular
for every integer-valued sequence, the only ones the server feeds in);
rounding can push the reported mean or median outside those bounds
otherwise. -/
theorem calculate_statistics_spec :
    calculate_statistics [] = ⟨0, 0, 0, 0, 0⟩
  ∧ ∀ S : List ℚ, S ≠ [] →
      (calculate_statistics S).total = S.sum
      ∧ (calculate_statistics S).min ∈ S
      ∧ (calculate_statistics S).max ∈ S
      ∧ (∀ v ∈ S, (calculate_statistics S).min ≤ v ∧ v ≤ (calculate_statistics S).max)
      ∧ (calculate_statistics S).mean = round2 (pyMean S)
      ∧ (calculate_statistics S).median = round2 (pyMedian S)
      ∧ ((∃ j : ℤ, pyMin S = (j : ℚ) / 100) → (∃ k : ℤ, pyMax S = (k : ℚ) / 100) →
          (calculate_statistics S).min ≤ (calculate_statistics S).mean
          ∧ (calculate_statistics S).mean ≤ (calculate_statistics S).max
          ∧ (calculate_statistics S).min ≤ (calculate_statistics S).median
          ∧ (calculate_statistics S).median ≤ (calculate_statistics S).max) := by
  refine ⟨rfl, ?_⟩
  intro S hS
  have h0 : S.isEmpty = false := by
    cases S with
    | nil => exact absurd rfl hS
    | cons x xs => rfl
  have hcs : calculate_statistics S =
      { mean := round2 (pyMean S), median := round2 (pyMedian S),
        min := pyMin S, max := pyMax S, total := S.sum } := by
    simp [calculate_statistics, h0]
  rw [hcs]
  refine ⟨rfl, pyMin_mem hS, pyMax_mem hS,
    fun v hv => ⟨pyMin_le v hv, le_pyMax v hv⟩, rfl, rfl, ?_⟩
  rintro ⟨j, hj⟩ ⟨k, hk⟩
  have hfixa : pyMin S = round2 (pyMin S) := by rw [hj, round2_hundredth]
  have hfixb : pyMax S = round2 (pyMax S) := by rw [hk, round2_hundredth]
  refine ⟨?_, ?_, ?_, ?_⟩
  · rw [hfixa]; exact round2_mono (pyMean_bounds hS).1
  · rw [hfixb]; exact round2_mono (pyMean_bounds hS).2
  · rw [hfixa]; exact round2_mono (pyMedian_bounds hS).1
  · rw [hfixb]; exact round2_mono (pyMedian_bounds hS).2

/-- Witness for C5 on the integer sequence `[3, 1, 2]`. -/
theorem calculate_statistics_spec_witness :
    (calculate_statistics [3, 1, 2]).total = ([3, 1, 2] : List ℚ).sum
    ∧ ((calculate_statistics [3, 1, 2]).min ≤ (calculate_statistics [3, 1, 2]).mean
       ∧ (calculate_statistics [3, 1, 2]).mean ≤ (calculate_statistics [3, 1, 2]).max
       ∧ (calculate_statistics [3, 1, 2]).min ≤ (calculate_statistics [3, 1, 2]).median
       ∧ (calculate_statistics [3, 1, 2]).median ≤ (calculate_statistics [3, 1, 2]).max) :=
  have h := calculate_statistics_spec.2 [3, 1, 2] (by simp)
  ⟨h.1, h.2.2.2.2.2.2
    ⟨100, by norm_num [pyMin, min_def]⟩
    ⟨300, by norm_num [pyMax, max_def]⟩⟩

/-- Counterexample to C5 as stated: on the (non-integer) singleton
`[0.001]` the reported mean rounds to `0`, strictly below the exact
minimum `0.001`, so `min ≤ mean` fails for the returned fields. -/
theorem stats_rounded_mean_below_min :
    (calculate_statistics [1/1000]).min = 1/1000
    ∧ (calculate_statistics [1/1000]).mean = 0
    ∧ ¬((calculate_statistics [1/1000]).min ≤ (calculate_statistics [1/1000]).mean) := by
  have h0 : ([1/1000] : List ℚ).isEmpty = false := rfl
  have hcs : calculate_statistics [1/1000] =
      { mean := round2 (pyMean [1/1000]), median := round2 (pyMedian [1/1000]),
        min := pyMin [1/1000], max := pyMax [1/1000], total := ([1/1000] : List ℚ).sum } := by
    simp [calculate_statistics, h0]
  have hmin : (calculate_statistics [1/1000]).min = 1/1000 := by
    rw [hcs]; norm_num [pyMin]
  have hmean : (calculate_statistics [1/1000]).mean = 0 := by
    rw [hcs]
    norm_num [pyMean, round2, roundHalfEven, Int.fract]
  refine ⟨hmin, hmean, ?_⟩
  rw [hmin, hmean]
  norm_num

/-! ## Claim C8: a missing period never aborts aggregation -/

/-- Folding over the period list skips an entry whose fetch result is `none`
whenever the step function ignores such entries. -/
theorem foldlM_skip_none {σ : Type} (f : σ → Nat × Option WeekData → Except String σ)
    (hskip : ∀ (a : σ) (w : Nat), f a (w, none) = Except.ok a)
    (ps1 ps2 : Periods) (w : Nat) (init : σ) :
    (ps1 ++ (w, none) :: ps2).foldlM f init = (ps1 ++ ps2).foldlM f init := by
  cases h : ps1.foldlM f init with
  | error e => rw [List.foldlM_append, List.foldlM_append, h]; rfl
  | ok a =>
    rw [List.foldlM_append, List.foldlM_append, h]
    show ((w, none) :: ps2).foldlM f a = ps2.foldlM f a
    rw [List.foldlM_cons, hskip]
    rfl

/-- **C8**: in the multi-week analysis, the search scan and the monthly
rollup, a period whose lookup returned "not found" is skipped and the
remaining periods are aggregated exactly as if the missing period were not
in the list at all. -/
theorem missing_period_skipped (ps1 ps2 : Periods) (w : Nat)
    (filt : Option String) (c : SearchCriteria) :
    analyze_camera_performance (ps1 ++ (w, none) :: ps2) filt
      = analyze_camera_performance (ps1 ++ ps2) filt
    ∧ search_infractions (ps1 ++ (w, none) :: ps2) c
      = search_infractions (ps1 ++ ps2) c
    ∧ get_monthly_report (ps1 ++ (w, none) :: ps2)
      = get_monthly_report (ps1 ++ ps2) := by
  refine ⟨?_, ?_, ?_⟩
  · unfold analyze_camera_performance collectAllData
    rw [foldlM_skip_none _ (fun a w => rfl) ps1 ps2 w]
  · unfold search_infractions
    rw [foldlM_skip_none _ (fun a w => rfl) ps1 ps2 w]
  · unfold get_monthly_report
    rw [foldlM_skip_none _ (fun a w => rfl) ps1 ps2 w]

/-! ## Claim C9: unsupported metric kinds are rejected up front -/

/-- **C9**: a ranking request with a metric outside
{infractions, frames, efficiency} is rejected by the input validator with
an explicit error before `compare_cameras` runs; the reply does not depend
on the record data at all, so no computation over the record set happens
and no default metric is substituted. -/
theorem invalid_metric_rejected (d : Option WeekData) (metric : String)
    (h1 : metric ≠ "infractions") (h2 : metric ≠ "frames")
    (h3 : metric ≠ "efficiency") :
    compare_cameras_checked d metric
      = Except.error "Metric must be infractions, frames, or efficiency" := by
  unfold compare_cameras_checked validate_metric
  have hcond : ¬(metric = "infractions" ∨ metric = "frames" ∨ metric = "efficiency") := by
    rintro (h | h | h)
    · exact h1 h
    · exact h2 h
    · exact h3 h
  rw [if_neg hcond]
  rfl

/-- Witness for C9: the metric kind "speed" is rejected on a non-trivial
record set. -/
theorem invalid_metric_rejected_witness :
    compare_cameras_checked
      (some [("1", ⟨some "Cam", none, some "10 GB", some 4, none, none⟩)]) "speed"
      = Except.error "Metric must be infractions, frames, or efficiency" :=
  invalid_metric_rejected _ "speed" (by decide) (by decide) (by decide)

/-! ## Stability of the modelled stable sort -/

theorem filter_orderedInsert_pos {α : Type} {r : α → α → Prop} [DecidableRel r]
    (p : α → Bool) (a : α) (l : List α) (hp : p a = true)
    (h : ∀ b ∈ l, p b = true → r a b) :
    (List.orderedInsert r a l).filter p = a :: l.filter p := by
  induction l with
  | nil => simp [List.orderedInsert, List.filter, hp]
  | cons b t ih =>
    by_cases hr : r a b
    · simp [List.orderedInsert, hr, List.filter, hp]
    · by_cases hpb : p b = true
      · exact absurd (h b (List.mem_cons_self b t) hpb) hr
      · have hstep : (List.orderedInsert r a (b :: t)).filter p
            = (List.orderedInsert r a t).filter p := by
          simp only [List.orderedInsert, if_neg hr, List.filter, hpb]
        rw [hstep, ih fun c hc hpc => h c (List.mem_cons_of_mem b hc) hpc]
        simp [List.filter, hpb]

theorem filter_orderedInsert_neg {α : Type} {r : α → α → Prop} [DecidableRel r]
    (p : α → Bool) (a : α) (l : List α) (hp : p a = false) :
    (List.orderedInsert r a l).filter p = l.filter p := by
  induction l with
  | nil => simp [List.orderedInsert, List.filter, hp]
  | cons b t ih =>
    by_cases hr : r a b
    · simp [List.orderedInsert, hr, List.filter, hp]
    · simp only [List.orderedInsert, if_neg hr, List.filter]
      cases hpb : p b
      · exact ih
      · rw [ih]

/-- A stable sort leaves the relative order of tied elements unchanged:
filtering the sorted list by any class of mutually tied elements returns
exactly the input's subsequence of that class. -/
theorem filter_insertionSort {α : Type} (r : α → α → Prop) [DecidableRel r]
    (p : α → Bool) (l : List α)
    (h : ∀ a b, p a = true → p b = true → r a b) :
    (List.insertionSort r l).filter p = l.filter p := by
  induction l with
  | nil => rfl
  | cons x t ih =>
    show (List.orderedInsert r x (List.insertionSort r t)).filter p = _
    by_cases hpx : p x = true
    · rw [filter_orderedInsert_pos p x _ hpx
        (fun b _ hpb => h x b hpx hpb), ih]
      simp [List.filter, hpx]
    · rw [filter_orderedInsert_neg p x _ (Bool.eq_false_iff.mpr hpx), ih]
      simp [List.filter, Bool.eq_false_iff.mpr hpx]

/-- Membership extraction for a successful `mapM` over `Except`. -/
theorem mapM_ok_mem {α β : Type} {f : α → Except String β} :
    ∀ {l : List α} {res : List β}, l.mapM f = Except.ok res →
      ∀ b ∈ res, ∃ a ∈ l, f a = Except.ok b := by
  intro l
  induction l with
  | nil =>
    intro res h b hb
    simp only [List.mapM_nil] at h
    cases h
    simp at hb
  | cons x t ih =>
    intro res h b hb
    rw [List.mapM_cons] at h
    cases hfx : f x with
    | error e => rw [hfx] at h; simp at h
    | ok y =>
      rw [hfx] at h
      cases hmt : t.mapM f with
      | error e => rw [hmt] at h; simp at h
      | ok ys =>
        rw [hmt] at h
        simp only [okBind] at h
        have hres : res = y :: ys := by
          have := h
          simp only [pure, Except.pure] at this
          cases this
          rfl
        subst hres
        rcases List.mem_cons.mp hb with hby | hbys
        · exact ⟨x, List.mem_cons_self x t, by rw [hfx, hby]⟩
        · obtain ⟨a, ha, hfa⟩ := ih hmt b hbys
          exact ⟨a, List.mem_cons_of_mem x ha, hfa⟩

/-! ## Claim C4: ranking order -/

/-- **C4**: for a fetched week and a supported metric kind,
`compare_cameras` returns the comparison rows sorted descending by the
selected metric value; the result is a permutation of the rows built in the
record set's iteration order, rows with equal metric values keep exactly
that iteration order (stability), and each row's frame count is the sum of
the device's daily frame mapping (the function is deterministic, so
repeated calls on identical input return the identical order). -/
theorem compare_ranking (data : WeekData) (metric : String) (res : List Comparison)
    (hm : metric = "infractions" ∨ metric = "frames" ∨ metric = "efficiency")
    (h : compare_cameras (some data) metric = Except.ok res) :
    List.Sorted cmpRel res
    ∧ (∃ comps : List Comparison,
        data.mapM (fun p => mkComparison metric p.1 p.2) = Except.ok comps
        ∧ res.Perm comps
        ∧ ∀ q : ℚ, res.filter (fun e => decide (e.metric_value = q))
            = comps.filter (fun e => decide (e.metric_value = q)))
    ∧ ∀ e ∈ res, ∃ p, p ∈ data ∧ mkComparison metric p.1 p.2 = Except.ok e
        ∧ e.frames = sumValues (p.2.frames.getD []) := by
  unfold compare_cameras at h
  dsimp only at h
  cases hie : data.isEmpty with
  | true => rw [hie] at h; simp at h
  | false =>
    rw [hie] at h
    simp only [Bool.false_eq_true, if_false] at h
    cases hmm : data.mapM (fun p => mkComparison metric p.1 p.2) with
    | error e => rw [hmm] at h; simp at h
    | ok comps =>
      rw [hmm] at h
      simp only [okBind, Except.ok.injEq] at h
      subst h
      refine ⟨List.sorted_insertionSort cmpRel comps, ⟨comps, rfl,
        List.perm_insertionSort cmpRel comps, ?_⟩, ?_⟩
      · intro q
        apply filter_insertionSort
        intro a b hpa hpb
        have ha : a.metric_value = q := of_decide_eq_true hpa
        have hb : b.metric_value = q := of_decide_eq_true hpb
        unfold cmpRel
        rw [ha, hb]
      · intro e he
        have hmem : e ∈ comps := (List.mem_insertionSort cmpRel).mp he
        obtain ⟨a, ha, hfa⟩ := mapM_ok_mem hmm e hmem
        exact ⟨a, ha, hfa, (mkComparison_ok hfa).2.2.2.2.1⟩

/-- Witness for C4: two cameras with stored totals 5 and 9 and no frame
maps, ranked by "infractions"; the row with metric value 9 comes first. -/
theorem compare_ranking_witness :
    List.Sorted cmpRel
      [⟨"2", "B", 9, 0, 0, 9, "s"⟩, ⟨"1", "A", 5, 0, 0, 5, "s"⟩] :=
  (compare_ranking
    [("1", ⟨some "A", none, some "s", some 5, none, none⟩),
     ("2", ⟨some "B", none, some "s", some 9, none, none⟩)]
    "infractions"
    [⟨"2", "B", 9, 0, 0, 9, "s"⟩, ⟨"1", "A", 5, 0, 0, 5, "s"⟩]
    (Or.inl rfl)
    (by
      simp only [compare_cameras, List.isEmpty_cons, Bool.false_eq_true, if_false,
        List.mapM_cons, List.mapM_nil, mkComparison, dictGet_some, okBind,
        metricValue, effExact, sumValues, mapValues]
      norm_num [List.insertionSort, List.orderedInsert, cmpRel, pure, Except.pure])).1

/-! ## Claim C7: missing fields in a device observation -/

theorem updateAgg_keys (m : List (String × CamAgg)) (k : String) (f : CamAgg → CamAgg) :
    (updateAgg m k f).map Prod.fst = m.map Prod.fst := by
  unfold updateAgg
  rw [List.map_map]
  apply List.map_congr_left
  intro p _
  by_cases hp : p.1 = k <;> simp [hp]

/-- A well-formed device observation is processed without error, and its
processing introduces no key other than its own. -/
theorem processCamera_wf (filt : Option String) (w : Nat)
    (acc : List (String × CamAgg)) (cid : String) (cd : CameraData)
    (hc : cd.camera ≠ none) (ht : cd.total ≠ none) :
    ∃ out, processCamera filt w acc cid cd = Except.ok out ∧
      ∀ k, k ∈ out.map Prod.fst → k ∈ acc.map Prod.fst ∨ k = cid := by
  obtain ⟨t, hts⟩ := Option.ne_none_iff_exists'.mp ht
  by_cases hpf : passFilter filt cid
  · cases hdf : dictFind acc cid with
    | some a0 =>
      have hv : processCamera filt w acc cid cd
          = Except.ok (updateAgg acc cid fun a =>
              { a with
                weeks := a.weeks ++ [w]
                infractions := a.infractions ++ [t]
                daily_infractions := mergeDaily a.daily_infractions (cd.infractions.getD [])
                daily_frames := mergeDaily a.daily_frames (cd.frames.getD []) }) := by
        unfold processCamera
        rw [if_pos hpf, hdf, hts]
        rfl
      exact ⟨_, hv, fun k hk => Or.inl (by rwa [updateAgg_keys] at hk)⟩
    | none =>
      obtain ⟨nm, hnm⟩ := Option.ne_none_iff_exists'.mp hc
      have hv : processCamera filt w acc cid cd
          = Except.ok (updateAgg (acc ++ [(cid, ⟨nm, [], [], [], [], []⟩)]) cid fun a =>
              { a with
                weeks := a.weeks ++ [w]
                infractions := a.infractions ++ [t]
                daily_infractions := mergeDaily a.daily_infractions (cd.infractions.getD [])
                daily_frames := mergeDaily a.daily_frames (cd.frames.getD []) }) := by
        unfold processCamera
        rw [if_pos hpf, hdf, hnm, hts]
        rfl
      refine ⟨_, hv, fun k hk => ?_⟩
      rw [updateAgg_keys] at hk
      simp only [List.map_append, List.mem_append] at hk
      rcases hk with hk | hk
      · exact Or.inl hk
      · simp at hk
        exact Or.inr hk
  · exact ⟨acc, by unfold processCamera; rw [if_neg hpf], fun k hk => Or.inl hk⟩

/-- Folding the camera loop over well-formed observations succeeds and only
introduces keys of the processed observations. -/
theorem fold_cameras_wf (filt : Option String) (w : Nat) :
    ∀ (data : WeekData) (acc : List (String × CamAgg)),
      (∀ p ∈ data, p.2.camera ≠ none ∧ p.2.total ≠ none) →
      ∃ out, data.foldlM (fun a p => processCamera filt w a p.1 p.2) acc = Except.ok out ∧
        ∀ k, k ∈ out.map Prod.fst → k ∈ acc.map Prod.fst ∨ k ∈ data.map Prod.fst := by
  intro data
  induction data with
  | nil =>
    intro acc _
    exact ⟨acc, rfl, fun k hk => Or.inl hk⟩
  | cons p ps ih =>
    intro acc hwf
    obtain ⟨mid, hmid, hmidk⟩ := processCamera_wf filt w acc p.1 p.2
      (hwf p (List.mem_cons_self p ps)).1 (hwf p (List.mem_cons_self p ps)).2
    obtain ⟨out, hout, houtk⟩ := ih mid fun q hq => hwf q (List.mem_cons_of_mem p hq)
    refine ⟨out, ?_, ?_⟩
    · rw [List.foldlM_cons, hmid, okBind, hout]
    · intro k hk
      rcases houtk k hk with hk2 | hk2
      · rcases hmidk k hk2 with hk3 | hk3
        · exact Or.inl hk3
        · right; rw [hk3]; exact List.mem_cons_self _ _
      · right; exact List.mem_cons_of_mem _ hk2

/-- **C7** (amended): when a device observation in a period lacks its
display-name field (and the device was not already initialised by an
earlier period), the whole analysis request fails with the `KeyError`-backed
error reply: no guessed value is substituted, and no other device of the
period — whether listed before or after the malformed one — contributes to
any result, because there is no result. -/
theorem malformed_record_aborts_analysis (w : Nat) (pre post : WeekData)
    (cid : String) (cd : CameraData)
    (hcam : cd.camera = none)
    (hnot : cid ∉ pre.map Prod.fst)
    (hpre : ∀ p ∈ pre, p.2.camera ≠ none ∧ p.2.total ≠ none) :
    analyze_camera_performance [(w, some (pre ++ (cid, cd) :: post))] none
      = Except.error "camera" := by
  obtain ⟨out, hout, houtk⟩ := fold_cameras_wf none w pre [] hpre
  have hcidout : cid ∉ out.map Prod.fst := by
    intro hmem
    rcases houtk cid hmem with h | h
    · simp at h
    · exact hnot h
  have hstep : processCamera none w out cid cd = Except.error "camera" := by
    unfold processCamera
    rw [if_pos (show passFilter none cid = true from rfl),
      dictFind_eq_none_of_not_mem hcidout, hcam]
    rfl
  have hweek : processWeek none [] w (some (pre ++ (cid, cd) :: post))
      = Except.error "camera" := by
    show (pre ++ (cid, cd) :: post).foldlM
        (fun acc p => processCamera none w acc p.1 p.2) [] = Except.error "camera"
    rw [List.foldlM_append, hout, okBind, List.foldlM_cons, hstep]
    rfl
  unfold analyze_camera_performance collectAllData
  simp only [List.foldlM_cons, List.foldlM_nil, hweek, errBind]

/-- Witness for C7: a single week whose only observation has no display
name makes the analysis request fail with the KeyError-backed reply. -/
theorem malformed_record_aborts_analysis_witness :
    analyze_camera_performance
      [(2, some [("9", ⟨none, none, none, some 3, none, none⟩)])] none
      = Except.error "camera" :=
  malformed_record_aborts_analysis 2 [] [] "9"
    ⟨none, none, none, some 3, none, none⟩ rfl (by simp) (by simp)

/-- Counterexample to C7 as stated: with camera "1" well-formed and camera
"2" missing its display name in the same week, the whole analysis request
returns an error, so camera "1" contributes nothing — even though analysing
camera "1" alone succeeds.  The failure is not confined to the malformed
device. -/
theorem malformed_record_kills_other_devices :
    analyze_camera_performance
      [(1, some [("1", ⟨some "A", none, none, some 2,
          some [("2024-01-01", 2)], some [("2024-01-01", 4)]⟩),
        ("2", ⟨none, none, none, some 7, none, none⟩)])] none
      = Except.error "camera"
    ∧ analyze_camera_performance
        [(1, some [("1", ⟨some "A", none, none, some 2,
            some [("2024-01-01", 2)], some [("2024-01-01", 4)]⟩)])] none
      = Except.ok [("1",
          { name := "A", weeks_analyzed := 1,
            infraction_stats := ⟨2, 2, 2, 2, 2⟩,
            daily_infraction_avg := 2, daily_frame_avg := 4,
            efficiency := 50 })] := by
  constructor
  · simp [analyze_camera_performance, collectAllData, processWeek, processCamera,
      passFilter, List.foldlM, dictFind, updateAgg]
  · simp [analyze_camera_performance, collectAllData, processWeek, processCamera,
      passFilter, List.foldlM, dictFind, updateAgg, mergeDaily, dictInsertAdd,
      analyzeCamera, calculate_statistics, pyMean, pyMedian, pyMin, pyMax,
      sumValues, mapValues, effRounded, round2, roundHalfEven]
    norm_num [Int.fract]

/-! ## Pure characterisation of the search scan -/

theorem mapM_const_ok {α β : Type} (g : α → β) :
    ∀ l : List α, l.mapM (fun a => (Except.ok (g a) : Except String β))
      = Except.ok (l.map g)
  | [] => rfl
  | x :: t => by rw [List.mapM_cons, mapM_const_ok g t]; rfl

/-- The match row built for one surviving (date, count) entry, with the
display name looked up from the record. -/
def mkMatch (w : Nat) (cid : String) (cd : CameraData) (p : String × Int) :
    SearchMatch :=
  { week := w
    camera_id := cid
    camera_name := cd.camera.getD ""
    date := p.1
    infractions := p.2
    frames := dictFindD (cd.frames.getD []) p.1 0 }

/-- The rows one camera contributes to the scan, in date order. -/
def pureScanCamera (c : SearchCriteria) (w : Nat) (cid : String)
    (cd : CameraData) : List SearchMatch :=
  ((cd.infractions.getD []).filter fun p => matchFilter c p.1 p.2).map
    (mkMatch w cid cd)

/-- The rows one fetched week contributes to the scan. -/
def pureScanWeek (c : SearchCriteria) (w : Nat) : Option WeekData → List SearchMatch
  | none => []
  | some data => data.flatMap fun p => pureScanCamera c w p.1 p.2

/-- The unsorted match list of `search_infractions`. -/
def pureScan (c : SearchCriteria) (ps : Periods) : List SearchMatch :=
  ps.flatMap fun p => pureScanWeek c p.1 p.2

theorem scanCamera_ok {c : SearchCriteria} {w : Nat} {cid : String}
    {cd : CameraData} {ms : List SearchMatch}
    (h : scanCamera c w cid cd = Except.ok ms) :
    ms = pureScanCamera c w cid cd ∧ (ms ≠ [] → cd.camera ≠ none) := by
  unfold scanCamera at h
  cases hcam : cd.camera with
  | some nm =>
    simp only [hcam, dictGet_some, okBind] at h
    rw [mapM_const_ok] at h
    cases h
    refine ⟨?_, fun _ => by simp [hcam]⟩
    unfold pureScanCamera mkMatch
    rw [hcam]
    rfl
  | none =>
    simp only [hcam, dictGet_none, errBind] at h
    cases hfl : (cd.infractions.getD []).filter fun p => matchFilter c p.1 p.2 with
    | nil =>
      rw [hfl, List.mapM_nil] at h
      cases h
      refine ⟨?_, fun hne => absurd rfl hne⟩
      unfold pureScanCamera
      rw [hfl]
      rfl
    | cons q qs =>
      rw [hfl, List.mapM_cons] at h
      simp at h

theorem scanWeek_fold_ok {c : SearchCriteria} {w : Nat} :
    ∀ (data : WeekData) (acc out : List SearchMatch),
      data.foldlM (fun a p => do
          let ms ← scanCamera c w p.1 p.2
          Except.ok (a ++ ms)) acc = Except.ok out →
      out = acc ++ data.flatMap (fun p => pureScanCamera c w p.1 p.2)
      ∧ ∀ p ∈ data, pureScanCamera c w p.1 p.2 ≠ [] → p.2.camera ≠ none := by
  intro data
  induction data with
  | nil =>
    intro acc out h
    rw [List.foldlM_nil] at h
    cases h
    exact ⟨by simp, by simp⟩
  | cons q qs ih =>
    intro acc out h
    rw [List.foldlM_cons] at h
    cases hsc : scanCamera c w q.1 q.2 with
    | error e => rw [hsc] at h; simp at h
    | ok ms =>
      rw [hsc] at h
      simp only [okBind] at h
      obtain ⟨hms, hnm⟩ := scanCamera_ok hsc
      obtain ⟨hout, hwf⟩ := ih (acc ++ ms) out h
      constructor
      · rw [hout, hms, List.flatMap_cons, List.append_assoc]
      · intro p hp
        rcases List.mem_cons.mp hp with hpq | hpqs
        · subst hpq
          intro hne
          exact hnm (by rw [hms]; exact hne)
        · exact hwf p hpqs

theorem search_scan_ok {c : SearchCriteria} :
    ∀ (ps : Periods) (acc out : List SearchMatch),
      ps.foldlM (fun a p => scanWeek c a p.1 p.2) acc = Except.ok out →
      out = acc ++ pureScan c ps
      ∧ ∀ (w : Nat) (data : WeekData) (cid : String) (cd : CameraData),
          (w, some data) ∈ ps → (cid, cd) ∈ data →
          pureScanCamera c w cid cd ≠ [] → cd.camera ≠ none := by
  intro ps
  induction ps with
  | nil =>
    intro acc out h
    rw [List.foldlM_nil] at h
    cases h
    exact ⟨by simp [pureScan], by simp⟩
  | cons x ps ih =>
    intro acc out h
    rw [List.foldlM_cons] at h
    obtain ⟨w1, d1⟩ := x
    cases d1 with
    | none =>
      have hskip : scanWeek c acc w1 none = Except.ok acc := rfl
      rw [hskip, okBind] at h
      obtain ⟨hout, hwf⟩ := ih acc out h
      constructor
      · rw [hout]
        simp [pureScan, pureScanWeek, List.flatMap_cons]
      · intro w data cid cd hmem hcd
        rcases List.mem_cons.mp hmem with hh | hh
        · cases hh
        · exact hwf w data cid cd hh hcd
    | some data =>
      cases hsw : scanWeek c acc w1 (some data) with
      | error e => rw [hsw] at h; simp at h
      | ok a2 =>
        rw [hsw] at h
        simp only [okBind] at h
        have hsw2 : data.foldlM (fun a p => do
            let ms ← scanCamera c w1 p.1 p.2
            Except.ok (a ++ ms)) acc = Except.ok a2 := hsw
        obtain ⟨ha2, hwfd⟩ := scanWeek_fold_ok data acc a2 hsw2
        obtain ⟨hout, hwf⟩ := ih a2 out h
        constructor
        · rw [hout, ha2]
          simp [pureScan, pureScanWeek, List.flatMap_cons, List.append_assoc]
        · intro w data2 cid cd hmem hcd
          rcases List.mem_cons.mp hmem with hh | hh
          · have hw : w = w1 := congrArg Prod.fst hh
            have hd : some data2 = some data := congrArg Prod.snd hh
            have hd2 : data2 = data := Option.some.injEq data2 data ▸ hd
            subst hw
            rw [hd2] at hcd
            exact hwfd (cid, cd) hcd
          · exact hwf w data2 cid cd hh hcd

/-- A successful search returns exactly the stable sort of the pure scan,
and every device that actually contributed rows has a display name. -/
theorem search_ok_eq {ps : Periods} {c : SearchCriteria} {res : List SearchMatch}
    (h : search_infractions ps c = Except.ok res) :
    res = List.insertionSort searchRel (pureScan c ps)
    ∧ ∀ (w : Nat) (data : WeekData) (cid : String) (cd : CameraData),
        (w, some data) ∈ ps → (cid, cd) ∈ data →
        pureScanCamera c w cid cd ≠ [] → cd.camera ≠ none := by
  unfold search_infractions at h
  cases hf : ps.foldlM (fun a p => scanWeek c a p.1 p.2) [] with
  | error e => rw [hf] at h; simp at h
  | ok found =>
    rw [hf] at h
    simp only [okBind, Except.ok.injEq] at h
    obtain ⟨he, hwf⟩ := search_scan_ok ps [] found hf
    rw [List.nil_append] at he
    exact ⟨by rw [← h, he], hwf⟩

/-! ## Claim C3: search semantics -/

theorem matchFilter_iff (c : SearchCriteria) (date : String) (count : Int) :
    matchFilter c date count = true ↔
      (c.date = none ∨ c.date = some "" ∨ c.date = some date)
      ∧ (∀ mn, c.min_infractions = some mn → mn ≤ count)
      ∧ (∀ mx, c.max_infractions = some mx → count ≤ mx) := by
  obtain ⟨cdt, cmn, cmx⟩ := c
  unfold matchFilter datePass minPass maxPass
  dsimp only
  rw [Bool.and_eq_true, Bool.and_eq_true]
  constructor
  · rintro ⟨⟨h1, h2⟩, h3⟩
    refine ⟨?_, ?_, ?_⟩
    · cases cdt with
      | none => exact Or.inl rfl
      | some d0 =>
        rcases Bool.or_eq_true_iff.mp h1 with hb | hb
        · exact Or.inr (Or.inl (by rw [beq_iff_eq.mp hb]))
        · exact Or.inr (Or.inr (by rw [beq_iff_eq.mp hb]))
    · intro mn hmn
      cases cmn with
      | none => exact Option.noConfusion hmn
      | some m0 =>
        injection hmn with he
        subst he
        exact of_decide_eq_true h2
    · intro mx hmx
      cases cmx with
      | none => exact Option.noConfusion hmx
      | some m0 =>
        injection hmx with he
        subst he
        exact of_decide_eq_true h3
  · rintro ⟨hd, hmn, hmx⟩
    refine ⟨⟨?_, ?_⟩, ?_⟩
    · cases cdt with
      | none => rfl
      | some d0 =>
        rcases hd with hd | hd | hd
        · exact Option.noConfusion hd
        · injection hd with he
          subst he
          simp
        · injection hd with he
          subst he
          simp
    · cases cmn with
      | none => rfl
      | some m0 => exact decide_eq_true (hmn m0 rfl)
    · cases cmx with
      | none => rfl
      | some m0 => exact decide_eq_true (hmx m0 rfl)

/-- The property of one (period, device, date, count) tuple that the spec
says makes it a search result: each set criterion holds (with the code's
actual treatment of an empty-string date criterion as unset), the frame
count is the device's frame value for the date with default 0, and the
display name is the device's. -/
def searchSpecMatch (ps : Periods) (c : SearchCriteria) (m : SearchMatch) : Prop :=
  ∃ (data : WeekData) (cd : CameraData),
    (m.week, some data) ∈ ps
    ∧ (m.camera_id, cd) ∈ data
    ∧ cd.camera = some m.camera_name
    ∧ (m.date, m.infractions) ∈ cd.infractions.getD []
    ∧ (c.date = none ∨ c.date = some "" ∨ c.date = some m.date)
    ∧ (∀ mn, c.min_infractions = some mn → mn ≤ m.infractions)
    ∧ (∀ mx, c.max_infractions = some mx → m.infractions ≤ mx)
    ∧ m.frames = dictFindD (cd.frames.getD []) m.date 0

/-- **C3** (amended): a successful search returns a list that contains a
match exactly for the scanned tuples satisfying every set criterion — with
the code's convention that an empty-string exact-date criterion behaves as
unset — where the frame count defaults to 0 when the date is absent from
the frame map; and the list is sorted primarily by ascending date
(lexicographic on the textual form) and secondarily by descending
infraction count. -/
theorem search_characterization (ps : Periods) (c : SearchCriteria)
    (res : List SearchMatch) (h : search_infractions ps c = Except.ok res) :
    List.Sorted searchRel res ∧ ∀ m, m ∈ res ↔ searchSpecMatch ps c m := by
  obtain ⟨heq, hwf⟩ := search_ok_eq h
  subst heq
  refine ⟨List.sorted_insertionSort searchRel _, ?_⟩
  intro m
  rw [List.mem_insertionSort]
  constructor
  · intro hm
    rw [pureScan, List.mem_flatMap] at hm
    obtain ⟨x, hx, hmx⟩ := hm
    obtain ⟨w, d⟩ := x
    cases d with
    | none => simp [pureScanWeek] at hmx
    | some data =>
      simp only [pureScanWeek, List.mem_flatMap] at hmx
      obtain ⟨q, hq, hmq⟩ := hmx
      have hne : pureScanCamera c w q.1 q.2 ≠ [] := by
        intro h0
        rw [h0] at hmq
        simp at hmq
      have hwfcam : q.2.camera ≠ none := hwf w data q.1 q.2 hx hq hne
      obtain ⟨nm, hnm⟩ := Option.ne_none_iff_exists'.mp hwfcam
      rw [pureScanCamera, List.mem_map] at hmq
      obtain ⟨p, hpf, hpm⟩ := hmq
      rw [List.mem_filter] at hpf
      obtain ⟨hdm, hmn, hmx2⟩ := (matchFilter_iff c p.1 p.2).mp hpf.2
      subst hpm
      refine ⟨data, q.2, ?_, ?_, ?_, ?_, ?_, ?_, ?_, ?_⟩
      · simpa [mkMatch] using hx
      · simpa [mkMatch] using hq
      · simp [mkMatch, hnm]
      · simpa [mkMatch] using hpf.1
      · simpa [mkMatch] using hdm
      · simpa [mkMatch] using hmn
      · simpa [mkMatch] using hmx2
      · simp [mkMatch]
  · rintro ⟨data, cd, hmem, hcd, hcam, hinf, hdate, hmin, hmax, hframes⟩
    rw [pureScan, List.mem_flatMap]
    refine ⟨(m.week, some data), hmem, ?_⟩
    simp only [pureScanWeek, List.mem_flatMap]
    refine ⟨(m.camera_id, cd), hcd, ?_⟩
    rw [pureScanCamera, List.mem_map]
    refine ⟨(m.date, m.infractions), ?_, ?_⟩
    · rw [List.mem_filter]
      exact ⟨hinf, (matchFilter_iff c m.date m.infractions).mpr ⟨hdate, hmin, hmax⟩⟩
    · simp only [mkMatch, hcam, Option.getD_some, ← hframes]

/-- Witness for C3 at the spec's concrete scenario: minimum 5 against daily
counts {01-05: 4, 01-06: 6} returns exactly the 01-06 row with 60 frames,
and that result is sorted. -/
theorem search_characterization_witness :
    List.Sorted searchRel [(⟨1, "A", "Cam A", "01-06", 6, 60⟩ : SearchMatch)] :=
  (search_characterization
    [(1, some [("A", ⟨some "Cam A", none, none, some 10,
        some [("01-05", 4), ("01-06", 6)],
        some [("01-05", 40), ("01-06", 60)]⟩)])]
    ⟨none, some 5, none⟩
    [⟨1, "A", "Cam A", "01-06", 6, 60⟩]
    rfl).1

/-- Counterexample to C3 as stated: with the exact-date criterion set to
the empty string, the scan still returns the row dated "2024-01-01", whose
date is not equal to the criterion — Python truthiness makes an
empty-string date filter a no-op instead of an exact match. -/
theorem empty_date_criterion_matches_everything :
    search_infractions
      [(1, some [("A", ⟨some "Cam A", none, none, some 3,
          some [("2024-01-01", 3)], none⟩)])]
      ⟨some "", none, none⟩
      = Except.ok [⟨1, "A", "Cam A", "2024-01-01", 3, 0⟩]
    ∧ ("2024-01-01" : String) ≠ "" := by
  exact ⟨rfl, by decide⟩

/-! ## Claim C6: search with no criteria -/

/-- With no criteria set, every (date, count) entry passes the filter. -/
theorem matchFilter_none (date : String) (count : Int) :
    matchFilter ⟨none, none, none⟩ date count = true := rfl

theorem week_of_mem_pureScanWeek {c : SearchCriteria} {w : Nat}
    {d : Option WeekData} {m : SearchMatch} (hm : m ∈ pureScanWeek c w d) :
    m.week = w := by
  cases d with
  | none => simp [pureScanWeek] at hm
  | some data =>
    simp only [pureScanWeek, List.mem_flatMap] at hm
    obtain ⟨q, _, hq⟩ := hm
    rw [pureScanCamera, List.mem_map] at hq
    obtain ⟨p, _, hp⟩ := hq
    rw [← hp]
    rfl

theorem camera_of_mem_pureScanCamera {c : SearchCriteria} {w : Nat}
    {cid : String} {cd : CameraData} {m : SearchMatch}
    (hm : m ∈ pureScanCamera c w cid cd) : m.camera_id = cid := by
  rw [pureScanCamera, List.mem_map] at hm
  obtain ⟨p, _, hp⟩ := hm
  rw [← hp]
  rfl

theorem countP_flatMap {α β : Type} (p : β → Bool) (f : α → List β) :
    ∀ l : List α, (l.flatMap f).countP p = (l.map fun a => (f a).countP p).sum
  | [] => rfl
  | x :: t => by
    rw [List.flatMap_cons, List.countP_append, countP_flatMap p f t,
      List.map_cons, List.sum_cons]

theorem countP_keys_notmem {d : String} : ∀ {infr : DailyMap},
    d ∉ infr.map Prod.fst → (infr.countP fun q => q.1 == d) = 0 := by
  intro infr hd
  apply List.countP_eq_zero.mpr
  intro q hq hpq
  exact hd (by
    rw [beq_iff_eq] at hpq
    rw [← hpq]
    exact List.mem_map_of_mem Prod.fst hq)

theorem countP_keys {d : String} : ∀ (infr : DailyMap),
    (infr.map Prod.fst).Nodup →
    (infr.countP fun q => q.1 == d) = if d ∈ infr.map Prod.fst then 1 else 0 := by
  intro infr
  induction infr with
  | nil => intro _; rfl
  | cons q t ih =>
    intro hn
    simp only [List.map_cons, List.nodup_cons] at hn
    rw [List.countP_cons]
    by_cases hqd : q.1 = d
    · have hdt : d ∉ t.map Prod.fst := by rw [← hqd]; exact hn.1
      rw [countP_keys_notmem hdt]
      have : d ∈ (q :: t).map Prod.fst := by
        rw [List.map_cons, ← hqd]
        exact List.mem_cons_self _ _
      simp [this, hqd]
    · have hbeq : (q.1 == d) = false := beq_eq_false_iff_ne.mpr hqd
      rw [ih hn.2, hbeq]
      by_cases hdt : d ∈ t.map Prod.fst
      · have : d ∈ (q :: t).map Prod.fst := by
          rw [List.map_cons]; exact List.mem_cons_of_mem _ hdt
        simp [this, hdt]
      · have hh0 : d ∉ (q :: t).map Prod.fst := by
          rw [List.map_cons]
          intro hh
          rcases List.mem_cons.mp hh with hh | hh
          · exact hqd hh.symm
          · exact hdt hh
        have hdq : ¬d = q.1 := fun hh => hqd hh.symm
        simp [hh0, hdt, hdq]

/-- Count of rows for one (week, device, date) triple contributed by the
right camera in the right week: 1 when the date is in the infraction map,
0 otherwise. -/
theorem countP_pureScanCamera_self {w : Nat} {cid d : String} {cd : CameraData}
    (hn : ((cd.infractions.getD []).map Prod.fst).Nodup) :
    (pureScanCamera ⟨none, none, none⟩ w cid cd).countP
        (fun m => m.week == w && m.camera_id == cid && m.date == d)
      = if d ∈ (cd.infractions.getD []).map Prod.fst then 1 else 0 := by
  unfold pureScanCamera
  have hfe : (cd.infractions.getD []).filter
      (fun p => matchFilter ⟨none, none, none⟩ p.1 p.2) = cd.infractions.getD [] :=
    List.filter_eq_self.mpr fun a _ => matchFilter_none a.1 a.2
  rw [hfe, List.countP_map]
  have hcg : ∀ q ∈ cd.infractions.getD [],
      ((fun m => m.week == w && m.camera_id == cid && m.date == d) ∘ mkMatch w cid cd) q = true
        ↔ (q.1 == d) = true := by
    intro q _
    simp [mkMatch, Function.comp]
  rw [List.countP_congr hcg, countP_keys _ hn]

theorem countP_pureScanCamera_other {c : SearchCriteria} {w w2 : Nat}
    {cid cid2 d : String} {cd : CameraData}
    (hne : cid2 ≠ cid) :
    (pureScanCamera c w2 cid2 cd).countP
        (fun m => m.week == w && m.camera_id == cid && m.date == d) = 0 := by
  apply List.countP_eq_zero.mpr
  intro m hm hp
  have hcam : m.camera_id = cid2 := camera_of_mem_pureScanCamera hm
  simp only [Bool.and_eq_true, beq_iff_eq] at hp
  exact hne (hcam ▸ hp.1.2)

theorem countP_pureScan_not_week {c : SearchCriteria} {w : Nat} {cid d : String} :
    ∀ {ps : Periods}, w ∉ ps.map Prod.fst →
    (pureScan c ps).countP
        (fun m => m.week == w && m.camera_id == cid && m.date == d) = 0 := by
  intro ps hw
  apply List.countP_eq_zero.mpr
  intro m hm hp
  rw [pureScan, List.mem_flatMap] at hm
  obtain ⟨x, hx, hmx⟩ := hm
  have hweek : m.week = x.1 := week_of_mem_pureScanWeek hmx
  simp only [Bool.and_eq_true, beq_iff_eq] at hp
  have hx1 : x.1 = w := by rw [← hweek, hp.1.1]
  exact hw (hx1 ▸ List.mem_map_of_mem Prod.fst hx)

theorem countP_pureScanWeek_nocam {c : SearchCriteria} {w w2 : Nat}
    {cid d : String} {data : WeekData} (h : cid ∉ data.map Prod.fst) :
    (pureScanWeek c w2 (some data)).countP
      (fun m => m.week == w && m.camera_id == cid && m.date == d) = 0 := by
  apply List.countP_eq_zero.mpr
  intro m hm hp
  simp only [pureScanWeek, List.mem_flatMap] at hm
  obtain ⟨q, hq, hmq⟩ := hm
  have hcam : m.camera_id = q.1 := camera_of_mem_pureScanCamera hmq
  simp only [Bool.and_eq_true, beq_iff_eq] at hp
  have : q.1 = cid := by rw [← hcam, hp.1.2]
  exact h (this ▸ List.mem_map_of_mem Prod.fst hq)

theorem countP_pureScanWeek_wrongweek {c : SearchCriteria} {w w2 : Nat}
    {cid d : String} {dd : Option WeekData} (h : w2 ≠ w) :
    (pureScanWeek c w2 dd).countP
      (fun m => m.week == w && m.camera_id == cid && m.date == d) = 0 := by
  apply List.countP_eq_zero.mpr
  intro m hm hp
  have hweek : m.week = w2 := week_of_mem_pureScanWeek hm
  simp only [Bool.and_eq_true, beq_iff_eq] at hp
  exact h (by rw [← hweek, hp.1.1])

theorem countP_pureScanWeek {w : Nat} {cid d : String} :
    ∀ data : WeekData,
      (data.map Prod.fst).Nodup →
      (∀ (cid2 : String) (cd : CameraData), (cid2, cd) ∈ data →
        ((cd.infractions.getD []).map Prod.fst).Nodup) →
      ((∃ cd, (cid, cd) ∈ data ∧ d ∈ (cd.infractions.getD []).map Prod.fst) →
        (pureScanWeek ⟨none, none, none⟩ w (some data)).countP
          (fun m => m.week == w && m.camera_id == cid && m.date == d) = 1)
      ∧ ((¬∃ cd, (cid, cd) ∈ data ∧ d ∈ (cd.infractions.getD []).map Prod.fst) →
        (pureScanWeek ⟨none, none, none⟩ w (some data)).countP
          (fun m => m.week == w && m.camera_id == cid && m.date == d) = 0) := by
  intro data
  induction data with
  | nil =>
    intro _ _
    constructor
    · rintro ⟨cd, hcd, _⟩
      simp at hcd
    · intro _
      rfl
  | cons q t ih =>
    intro hn hinfs
    simp only [List.map_cons, List.nodup_cons] at hn
    have hsplit : pureScanWeek ⟨none, none, none⟩ w (some (q :: t))
        = pureScanCamera ⟨none, none, none⟩ w q.1 q.2
          ++ pureScanWeek ⟨none, none, none⟩ w (some t) := by
      simp [pureScanWeek, List.flatMap_cons]
    rw [hsplit, List.countP_append]
    by_cases hq : q.1 = cid
    · have hnocam : cid ∉ t.map Prod.fst := hq ▸ hn.1
      rw [countP_pureScanWeek_nocam hnocam]
      have hself := @countP_pureScanCamera_self w cid d q.2 (hinfs q.1 q.2 (by
        rw [show (q.1, q.2) = q from rfl]
        exact List.mem_cons_self q t))
      rw [hq, hself]
      constructor
      · rintro ⟨cd, hcd, hd⟩
        rcases List.mem_cons.mp hcd with hh | hh
        · have hcd2 : cd = q.2 := (congrArg Prod.snd hh.symm).symm
          rw [hcd2] at hd
          simp [hd]
        · exact absurd (List.mem_map_of_mem Prod.fst hh) hnocam
      · intro hne
        have hd : d ∉ (q.2.infractions.getD []).map Prod.fst := by
          intro hd
          exact hne ⟨q.2, by
            rw [show (cid, q.2) = q from by rw [← hq]]
            exact List.mem_cons_self q t, hd⟩
        simp [hd]
    · rw [countP_pureScanCamera_other fun hh => hq hh]
      have hex : (∃ cd, (cid, cd) ∈ q :: t ∧ d ∈ (cd.infractions.getD []).map Prod.fst)
          ↔ (∃ cd, (cid, cd) ∈ t ∧ d ∈ (cd.infractions.getD []).map Prod.fst) := by
        constructor
        · rintro ⟨cd, hcd, hd⟩
          rcases List.mem_cons.mp hcd with hh | hh
          · exact absurd (congrArg Prod.fst hh.symm) hq
          · exact ⟨cd, hh, hd⟩
        · rintro ⟨cd, hcd, hd⟩
          exact ⟨cd, List.mem_cons_of_mem q hcd, hd⟩
      obtain ⟨ihA, ihB⟩ := ih hn.2 fun cid2 cd hcd => hinfs cid2 cd (List.mem_cons_of_mem q hcd)
      constructor
      · intro hexc
        rw [Nat.zero_add]
        exact ihA (hex.mp hexc)
      · intro hexc
        rw [Nat.zero_add]
        exact ihB fun he => hexc (hex.mpr he)

theorem countP_pureScan_counts {cid d : String} :
    ∀ (ps : Periods) (w : Nat),
      (ps.map Prod.fst).Nodup →
      (∀ (w2 : Nat) (data : WeekData), (w2, some data) ∈ ps → (data.map Prod.fst).Nodup) →
      (∀ (w2 : Nat) (data : WeekData) (cid2 : String) (cd : CameraData),
        (w2, some data) ∈ ps → (cid2, cd) ∈ data →
        ((cd.infractions.getD []).map Prod.fst).Nodup) →
      ((∃ (data : WeekData) (cd : CameraData), (w, some data) ∈ ps ∧ (cid, cd) ∈ data
          ∧ d ∈ (cd.infractions.getD []).map Prod.fst) →
        (pureScan ⟨none, none, none⟩ ps).countP
          (fun m => m.week == w && m.camera_id == cid && m.date == d) = 1)
      ∧ ((¬∃ (data : WeekData) (cd : CameraData), (w, some data) ∈ ps ∧ (cid, cd) ∈ data
          ∧ d ∈ (cd.infractions.getD []).map Prod.fst) →
        (pureScan ⟨none, none, none⟩ ps).countP
          (fun m => m.week == w && m.camera_id == cid && m.date == d) = 0) := by
  intro ps
  induction ps with
  | nil =>
    intro w _ _ _
    constructor
    · rintro ⟨data, cd, hmem, _⟩
      simp at hmem
    · intro _
      rfl
  | cons x t ih =>
    intro w hwk hdata hinf
    obtain ⟨w1, dd⟩ := x
    simp only [List.map_cons, List.nodup_cons] at hwk
    have hsplit : pureScan ⟨none, none, none⟩ ((w1, dd) :: t)
        = pureScanWeek ⟨none, none, none⟩ w1 dd ++ pureScan ⟨none, none, none⟩ t := by
      simp [pureScan, List.flatMap_cons]
    rw [hsplit, List.countP_append]
    by_cases hw : w1 = w
    · subst hw
      have htail : (pureScan ⟨none, none, none⟩ t).countP
          (fun m => m.week == w1 && m.camera_id == cid && m.date == d) = 0 :=
        countP_pureScan_not_week hwk.1
      rw [htail, Nat.add_zero]
      cases dd with
      | none =>
        constructor
        · rintro ⟨data, cd, hmem, hcd, hd⟩
          rcases List.mem_cons.mp hmem with hh | hh
          · exact Option.noConfusion (congrArg Prod.snd hh)
          · exact absurd (List.mem_map_of_mem Prod.fst hh) hwk.1
        · intro _
          rfl
      | some data =>
        obtain ⟨wA, wB⟩ := countP_pureScanWeek data
          (hdata w1 data (List.mem_cons_self _ _))
          (fun cid2 cd hcd => hinf w1 data cid2 cd (List.mem_cons_self _ _) hcd)
        constructor
        · rintro ⟨data2, cd, hmem, hcd, hd⟩
          rcases List.mem_cons.mp hmem with hh | hh
          · have hd2 : data2 = data :=
              Option.some.inj (congrArg Prod.snd hh)
            rw [hd2] at hcd
            exact wA ⟨cd, hcd, hd⟩
          · exact absurd (List.mem_map_of_mem Prod.fst hh) hwk.1
        · intro hne
          apply wB
          rintro ⟨cd, hcd, hd⟩
          exact hne ⟨data, cd, List.mem_cons_self _ _, hcd, hd⟩
    · rw [countP_pureScanWeek_wrongweek hw]
      have hex : (∃ (data : WeekData) (cd : CameraData), (w, some data) ∈ (w1, dd) :: t
            ∧ (cid, cd) ∈ data ∧ d ∈ (cd.infractions.getD []).map Prod.fst)
          ↔ (∃ (data : WeekData) (cd : CameraData), (w, some data) ∈ t
            ∧ (cid, cd) ∈ data ∧ d ∈ (cd.infractions.getD []).map Prod.fst) := by
        constructor
        · rintro ⟨data, cd, hmem, hcd, hd⟩
          rcases List.mem_cons.mp hmem with hh | hh
          · exact absurd (congrArg Prod.fst hh.symm) hw
          · exact ⟨data, cd, hh, hcd, hd⟩
        · rintro ⟨data, cd, hmem, hcd, hd⟩
          exact ⟨data, cd, List.mem_cons_of_mem _ hmem, hcd, hd⟩
      obtain ⟨ihA, ihB⟩ := ih w hwk.2
        (fun w2 data hmem => hdata w2 data (List.mem_cons_of_mem _ hmem))
        (fun w2 data cid2 cd hmem hcd => hinf w2 data cid2 cd (List.mem_cons_of_mem _ hmem) hcd)
      constructor
      · intro hexc
        rw [Nat.zero_add]
        exact ihA (hex.mp hexc)
      · intro hexc
        rw [Nat.zero_add]
        exact ihB fun he => hexc (hex.mpr he)

/-- **C6** (amended): search with no criteria over week files whose JSON
keys are (necessarily) unique returns exactly one match per
(period, device, date) triple present in the scanned periods — count 1 for
every present triple, count 0 for every absent one, so no duplicates and no
omissions.  (Per (device, date) pair the count can exceed one when the same
pair occurs in several periods.) -/
theorem search_no_criteria_unique (ps : Periods) (res : List SearchMatch)
    (hwk : (ps.map Prod.fst).Nodup)
    (hdata : ∀ (w : Nat) (data : WeekData), (w, some data) ∈ ps →
      (data.map Prod.fst).Nodup)
    (hinf : ∀ (w : Nat) (data : WeekData) (cid : String) (cd : CameraData),
      (w, some data) ∈ ps → (cid, cd) ∈ data →
      ((cd.infractions.getD []).map Prod.fst).Nodup)
    (h : search_infractions ps ⟨none, none, none⟩ = Except.ok res) :
    ∀ (w : Nat) (cid d : String),
      ((∃ (data : WeekData) (cd : CameraData), (w, some data) ∈ ps ∧ (cid, cd) ∈ data
          ∧ d ∈ (cd.infractions.getD []).map Prod.fst) →
        res.countP (fun m => m.week == w && m.camera_id == cid && m.date == d) = 1)
      ∧ ((¬∃ (data : WeekData) (cd : CameraData), (w, some data) ∈ ps ∧ (cid, cd) ∈ data
          ∧ d ∈ (cd.infractions.getD []).map Prod.fst) →
        res.countP (fun m => m.week == w && m.camera_id == cid && m.date == d) = 0) := by
  obtain ⟨heq, _⟩ := search_ok_eq h
  subst heq
  intro w cid d
  rw [List.Perm.countP_eq _ (List.perm_insertionSort searchRel _)]
  exact countP_pureScan_counts ps w hwk hdata hinf

/-- A camera record used in the C6 instances: 3 infractions on 2024-01-01,
no frame map. -/
def c6cam : CameraData :=
  ⟨some "Cam A", none, none, some 3, some [("2024-01-01", 3)], none⟩

/-- Witness for C6: one week, one device, one date — the triple is counted
exactly once in the search result. -/
theorem search_no_criteria_unique_witness :
    List.countP (fun m => m.week == 1 && m.camera_id == "A" && m.date == "2024-01-01")
      [(⟨1, "A", "Cam A", "2024-01-01", 3, 0⟩ : SearchMatch)] = 1 :=
  (search_no_criteria_unique [(1, some [("A", c6cam)])]
    [⟨1, "A", "Cam A", "2024-01-01", 3, 0⟩]
    (by simp)
    (by
      intro w data hmem
      simp only [List.mem_singleton, Prod.mk.injEq, Option.some.injEq] at hmem
      rw [hmem.2]
      simp)
    (by
      intro w data cid cd hmem hcd
      simp only [List.mem_singleton, Prod.mk.injEq, Option.some.injEq] at hmem
      rw [hmem.2] at hcd
      simp only [List.mem_singleton, Prod.mk.injEq] at hcd
      rw [hcd.2]
      simp [c6cam])
    rfl 1 "A" "2024-01-01").1
    ⟨[("A", c6cam)], c6cam, by simp, by simp, by simp [c6cam]⟩

/-- Counterexample to C6 as stated: the same (device, date) pair occurring
in two different periods produces two matches, so "one match per
(device, date) pair" fails; matches are unique per (period, device, date)
triple instead. -/
theorem same_pair_in_two_periods_two_matches :
    search_infractions [(1, some [("A", c6cam)]), (2, some [("A", c6cam)])]
      ⟨none, none, none⟩
      = Except.ok [⟨1, "A", "Cam A", "2024-01-01", 3, 0⟩,
                   ⟨2, "A", "Cam A", "2024-01-01", 3, 0⟩]
    ∧ List.countP (fun m => m.camera_id == "A" && m.date == "2024-01-01")
        [(⟨1, "A", "Cam A", "2024-01-01", 3, 0⟩ : SearchMatch),
         ⟨2, "A", "Cam A", "2024-01-01", 3, 0⟩] = 2 := by
  constructor
  · have hfold : [(1, some [("A", c6cam)]), (2, some [("A", c6cam)])].foldlM
        (fun a p => scanWeek ⟨none, none, none⟩ a p.1 p.2) []
        = Except.ok [⟨1, "A", "Cam A", "2024-01-01", 3, 0⟩,
                     ⟨2, "A", "Cam A", "2024-01-01", 3, 0⟩] := rfl
    unfold search_infractions
    rw [hfold, okBind]
    have hr : searchRel ⟨1, "A", "Cam A", "2024-01-01", 3, 0⟩
        ⟨2, "A", "Cam A", "2024-01-01", 3, 0⟩ := Or.inr ⟨rfl, le_refl 3⟩
    simp only [List.insertionSort, List.orderedInsert]
    rw [if_pos hr]
  · rfl

/-! ## Claim C10: monthly report totals -/

/-- Sum of all daily infraction-map entries of one fetched week. -/
def periodDailyInfractions (d : Option WeekData) : Int :=
  match d with
  | none => 0
  | some data => (data.map fun p => sumValues (p.2.infractions.getD [])).sum

/-- Sum of all daily infraction-map entries over every device and present
period. -/
def allDailyInfractions (ps : Periods) : Int :=
  (ps.map fun p => periodDailyInfractions p.2).sum

/-- Sum of the stored `total` fields of one fetched week. -/
def periodStoredTotals (d : Option WeekData) : Int :=
  match d with
  | none => 0
  | some data => (data.map fun q => q.2.total.getD 0).sum

/-- Sum of the stored `total` fields over every device and present period. -/
def allStoredTotals (ps : Periods) : Int :=
  (ps.map fun p => periodStoredTotals p.2).sum

/-- Stored `total` fields contributed by device `c` in one fetched week. -/
def periodStoredFor (d : Option WeekData) (c : String) : Int :=
  match d with
  | none => 0
  | some data => ((data.filter fun q => q.1 == c).map fun q => q.2.total.getD 0).sum

/-- Stored `total` fields contributed by device `c` over all periods. -/
def storedTotalsPeriods (ps : Periods) (c : String) : Int :=
  (ps.map fun p => periodStoredFor p.2 c).sum

/-- The per-device infraction total recorded in the monthly rollup
(`0` for an unknown device). -/
def camTotal (m : List (String × CamMonth)) (c : String) : Int :=
  match dictFind m c with
  | some cm => cm.total_infractions
  | none => 0

/-- Sum of the per-device infraction totals of the monthly rollup. -/
def sumTotals (m : List (String × CamMonth)) : Int :=
  (m.map fun p => p.2.total_infractions).sum

theorem dictFind_map_update {β : Type} (m : List (String × β)) (k c : String)
    (f : β → β) :
    dictFind (m.map fun p => if p.1 = k then (p.1, f p.2) else p) c
      = if c = k then (dictFind m k).map f else dictFind m c := by
  induction m with
  | nil => simp [dictFind]
  | cons p ps ih =>
    by_cases hpk : p.1 = k
    · by_cases hck : c = k
      · have hpc : p.1 = c := by rw [hpk, hck]
        simp [dictFind, hpk, hck, hpc]
      · have hpc : ¬p.1 = c := by
          rw [hpk]
          exact fun hh => hck hh.symm
        have hkc : ¬k = c := fun hh => hck hh.symm
        simp [dictFind, hpk, hck, hpc, hkc, ih]
    · by_cases hpc : p.1 = c
      · have hck : ¬c = k := by
          rw [← hpc]
          exact hpk
        simp [dictFind, hpk, hpc, hck]
      · simp [dictFind, hpk, hpc, ih]

theorem dictFind_updateCamMonth (m : List (String × CamMonth)) (k c : String)
    (f : CamMonth → CamMonth) :
    dictFind (updateCamMonth m k f) c
      = if c = k then (dictFind m k).map f else dictFind m c :=
  dictFind_map_update m k c f

theorem mem_keys_dictFind_isSome {β : Type} {m : List (String × β)} {k : String}
    (h : k ∈ m.map Prod.fst) : (dictFind m k).isSome := by
  induction m with
  | nil => simp at h
  | cons p ps ih =>
    simp only [List.map_cons, List.mem_cons] at h
    by_cases hpk : p.1 = k
    · simp [dictFind, hpk]
    · rcases h with h | h
      · exact absurd h.symm hpk
      · simp only [dictFind, hpk, if_false]
        exact ih h

theorem dictFind_none_not_mem {β : Type} {m : List (String × β)} {k : String}
    (h : dictFind m k = none) : k ∉ m.map Prod.fst := by
  intro hmem
  have := mem_keys_dictFind_isSome hmem
  rw [h] at this
  simp at this

theorem updateCamMonth_keys (m : List (String × CamMonth)) (k : String)
    (f : CamMonth → CamMonth) :
    (updateCamMonth m k f).map Prod.fst = m.map Prod.fst := by
  unfold updateCamMonth
  rw [List.map_map]
  apply List.map_congr_left
  intro p _
  by_cases hp : p.1 = k <;> simp [hp]

theorem camTotal_update (m : List (String × CamMonth)) (k c : String)
    (f : CamMonth → CamMonth) :
    camTotal (updateCamMonth m k f) c
      = if c = k then
          (match dictFind m k with
            | some cm => (f cm).total_infractions
            | none => 0)
        else camTotal m c := by
  unfold camTotal updateCamMonth
  rw [dictFind_map_update]
  by_cases hck : c = k
  · rw [if_pos hck, if_pos hck]
    cases dictFind m k <;> rfl
  · rw [if_neg hck, if_neg hck]

theorem camTotal_append_init (m : List (String × CamMonth)) (k nm : String)
    (c : String) :
    camTotal (m ++ [(k, ⟨nm, 0, 0, 0⟩)]) c = camTotal m c := by
  unfold camTotal
  cases hc : dictFind m c with
  | some cm => rw [dictFind_append_of_some hc]
  | none =>
    rw [dictFind_append_of_none hc]
    by_cases hkc : k = c
    · subst hkc
      simp [dictFind]
    · simp [dictFind, hkc]

theorem map_update_id {β : Type} (m : List (String × β)) (k : String)
    (f : β → β) (h : dictFind m k = none) :
    (m.map fun p => if p.1 = k then (p.1, f p.2) else p) = m := by
  induction m with
  | nil => rfl
  | cons p ps ih =>
    by_cases hpk : p.1 = k
    · rw [dictFind, if_pos hpk] at h
      exact absurd h (by simp)
    · rw [dictFind, if_neg hpk] at h
      simp only [List.map_cons, if_neg hpk]
      rw [ih h]

theorem sumTotals_append_init (m : List (String × CamMonth)) (k nm : String) :
    sumTotals (m ++ [(k, ⟨nm, 0, 0, 0⟩)]) = sumTotals m := by
  unfold sumTotals
  rw [List.map_append, List.sum_append]
  simp

theorem sumTotals_update_add {m : List (String × CamMonth)} {k : String}
    {t : Int} (f : CamMonth → CamMonth)
    (hft : ∀ x, (f x).total_infractions = x.total_infractions + t)
    (hn : (m.map Prod.fst).Nodup) (hf : (dictFind m k).isSome) :
    sumTotals (updateCamMonth m k f) = sumTotals m + t := by
  induction m with
  | nil => simp [dictFind] at hf
  | cons p ps ih =>
    simp only [List.map_cons, List.nodup_cons] at hn
    by_cases hpk : p.1 = k
    · have hnone : dictFind ps k = none :=
        dictFind_eq_none_of_not_mem (hpk ▸ hn.1)
      unfold updateCamMonth sumTotals
      simp only [List.map_cons, if_pos hpk]
      rw [show (ps.map fun p => if p.1 = k then (p.1, f p.2) else p) = ps from
        map_update_id ps k f hnone]
      simp only [List.sum_cons, hft]
      omega
    · have hf2 : (dictFind ps k).isSome := by
        rw [dictFind, if_neg hpk] at hf
        exact hf
      unfold updateCamMonth sumTotals at ih ⊢
      simp only [List.map_cons, if_neg hpk, List.sum_cons]
      rw [ih hn.2 hf2]
      omega

theorem sumTotals_update_keep (m : List (String × CamMonth)) (k : String)
    (f : CamMonth → CamMonth)
    (hft : ∀ x, (f x).total_infractions = x.total_infractions) :
    sumTotals (updateCamMonth m k f) = sumTotals m := by
  unfold sumTotals updateCamMonth
  rw [List.map_map]
  apply congrArg
  apply List.map_congr_left
  intro p _
  by_cases hp : p.1 = k <;> simp [hp, hft]

/-- One iteration of the monthly camera loop: requires the stored `total`,
adds it to exactly this camera's rollup total, and adds the daily
infraction sum to the week counter. -/
theorem processMonthCamera_ok {a : MonthAcc} {cid : String} {cd : CameraData}
    {a2 : MonthAcc} (h : processMonthCamera a cid cd = Except.ok a2) :
    ∃ t, cd.total = some t
    ∧ a2.week_infractions = a.week_infractions + sumValues (cd.infractions.getD [])
    ∧ (∀ c, camTotal a2.cameras c = camTotal a.cameras c + (if cid = c then t else 0))
    ∧ ((a.cameras.map Prod.fst).Nodup →
        (a2.cameras.map Prod.fst).Nodup
        ∧ sumTotals a2.cameras = sumTotals a.cameras + t) := by
  cases hdf : dictFind a.cameras cid with
  | some c0 =>
    cases ht : cd.total with
    | none =>
      have hv : processMonthCamera a cid cd = Except.error "total" := by
        unfold processMonthCamera
        rw [hdf, ht]
        rfl
      rw [hv] at h
      exact absurd h (by simp)
    | some t =>
      have hv : processMonthCamera a cid cd = Except.ok
          ⟨updateCamMonth (updateCamMonth a.cameras cid fun cm =>
              { cm with
                total_infractions := cm.total_infractions + t
                weeks_active := cm.weeks_active + 1 }) cid fun cm =>
              { cm with total_frames := cm.total_frames + sumValues (cd.frames.getD []) },
            (cd.frames.getD []).foldl (fun dt p => addDailyFrame dt p.1 p.2)
              ((cd.infractions.getD []).foldl (fun dt p => addDailyInfraction dt p.1 p.2)
                a.daily_totals),
            a.week_infractions + sumValues (cd.infractions.getD []),
            a.week_frames + sumValues (cd.frames.getD [])⟩ := by
        unfold processMonthCamera
        rw [hdf, ht]
        rfl
      rw [hv] at h
      have ha2 := Except.ok.inj h
      subst ha2
      refine ⟨t, rfl, rfl, ?_, ?_⟩
      · intro c
        rw [camTotal_update, camTotal_update]
        by_cases hc : c = cid
        · rw [if_pos hc, if_pos hc.symm, hc]
          rw [dictFind_updateCamMonth, if_pos rfl, hdf]
          unfold camTotal
          rw [hdf]
          rfl
        · have hcid : ¬cid = c := fun hh => hc hh.symm
          rw [if_neg hc, if_neg hc, if_neg hcid]
          omega
      · intro hn
        have hk2 := updateCamMonth_keys a.cameras cid fun cm =>
          { cm with
            total_infractions := cm.total_infractions + t
            weeks_active := cm.weeks_active + 1 }
        constructor
        · rw [updateCamMonth_keys, hk2]
          exact hn
        · rw [sumTotals_update_keep _ cid
              (fun cm => { cm with
                total_frames := cm.total_frames + sumValues (cd.frames.getD []) })
              (fun x => rfl),
            sumTotals_update_add
              (fun cm => { cm with
                total_infractions := cm.total_infractions + t
                weeks_active := cm.weeks_active + 1 })
              (fun x => rfl) hn (by rw [hdf]; rfl)]
  | none =>
    cases hcam : cd.camera with
    | none =>
      have hv : processMonthCamera a cid cd = Except.error "camera" := by
        unfold processMonthCamera
        rw [hdf, hcam]
        rfl
      rw [hv] at h
      exact absurd h (by simp)
    | some nm =>
      cases ht : cd.total with
      | none =>
        have hv : processMonthCamera a cid cd = Except.error "total" := by
          unfold processMonthCamera
          rw [hdf, hcam, ht]
          rfl
        rw [hv] at h
        exact absurd h (by simp)
      | some t =>
        have hv : processMonthCamera a cid cd = Except.ok
            ⟨updateCamMonth (updateCamMonth
                (a.cameras ++ [(cid, ⟨nm, 0, 0, 0⟩)]) cid fun cm =>
                { cm with
                  total_infractions := cm.total_infractions + t
                  weeks_active := cm.weeks_active + 1 }) cid fun cm =>
                { cm with total_frames := cm.total_frames + sumValues (cd.frames.getD []) },
              (cd.frames.getD []).foldl (fun dt p => addDailyFrame dt p.1 p.2)
                ((cd.infractions.getD []).foldl (fun dt p => addDailyInfraction dt p.1 p.2)
                  a.daily_totals),
              a.week_infractions + sumValues (cd.infractions.getD []),
              a.week_frames + sumValues (cd.frames.getD [])⟩ := by
          unfold processMonthCamera
          rw [hdf, hcam, ht]
          rfl
        rw [hv] at h
        have ha2 := Except.ok.inj h
        subst ha2
        have hfind0 : dictFind (a.cameras ++ [(cid, (⟨nm, 0, 0, 0⟩ : CamMonth))]) cid
            = some ⟨nm, 0, 0, 0⟩ := by
          rw [dictFind_append_of_none hdf]
          simp [dictFind]
        refine ⟨t, rfl, rfl, ?_, ?_⟩
        · intro c
          rw [camTotal_update, camTotal_update]
          by_cases hc : c = cid
          · rw [if_pos hc, if_pos hc.symm, hc]
            rw [dictFind_updateCamMonth, if_pos rfl, hfind0]
            unfold camTotal
            rw [hdf]
            simp
          · have hcid : ¬cid = c := fun hh => hc hh.symm
            rw [if_neg hc, if_neg hc, if_neg hcid,
              camTotal_append_init a.cameras cid nm c]
            omega
        · intro hn
          have hnotin : cid ∉ a.cameras.map Prod.fst := dictFind_none_not_mem hdf
          have hn0 : ((a.cameras ++ [(cid, (⟨nm, 0, 0, 0⟩ : CamMonth))]).map
              Prod.fst).Nodup := by
            rw [List.map_append]
            rw [List.nodup_append]
            refine ⟨hn, by simp, ?_⟩
            intro x hx
            simp only [List.map_cons, List.map_nil, List.mem_singleton]
            intro hxcid
            exact hnotin (hxcid ▸ hx)
          constructor
          · rw [updateCamMonth_keys, updateCamMonth_keys]
            exact hn0
          · rw [sumTotals_update_keep _ cid
                (fun cm => { cm with
                  total_frames := cm.total_frames + sumValues (cd.frames.getD []) })
                (fun x => rfl),
              sumTotals_update_add
                (fun cm => { cm with
                  total_infractions := cm.total_infractions + t
                  weeks_active := cm.weeks_active + 1 })
                (fun x => rfl) hn0 (by rw [hfind0]; rfl),
              sumTotals_append_init]

/-- The camera loop of one monthly week: accumulates the daily infraction
sums into the week counter, each device's stored totals into that device's
rollup entry, and the sum of all stored totals into the grand rollup sum. -/
theorem foldMonthCameras_ok :
    ∀ (data : WeekData) (a a2 : MonthAcc),
      data.foldlM (fun x p => processMonthCamera x p.1 p.2) a = Except.ok a2 →
      a2.week_infractions = a.week_infractions
          + (data.map fun p => sumValues (p.2.infractions.getD [])).sum
      ∧ (∀ c, camTotal a2.cameras c = camTotal a.cameras c
          + ((data.filter fun q => q.1 == c).map fun q => q.2.total.getD 0).sum)
      ∧ ((a.cameras.map Prod.fst).Nodup →
          (a2.cameras.map Prod.fst).Nodup
          ∧ sumTotals a2.cameras = sumTotals a.cameras
              + (data.map fun q => q.2.total.getD 0).sum) := by
  intro data
  induction data with
  | nil =>
    intro a a2 h
    rw [List.foldlM_nil] at h
    cases h
    exact ⟨by simp, fun c => by simp, fun hn => ⟨hn, by simp⟩⟩
  | cons q t ih =>
    intro a a2 h
    rw [List.foldlM_cons] at h
    cases hstep : processMonthCamera a q.1 q.2 with
    | error e => rw [hstep] at h; simp at h
    | ok mid =>
      rw [hstep] at h
      simp only [okBind] at h
      obtain ⟨tq, htq, hwi, hcam, hns⟩ := processMonthCamera_ok hstep
      obtain ⟨ihwi, ihcam, ihns⟩ := ih mid a2 h
      refine ⟨?_, ?_, ?_⟩
      · rw [ihwi, hwi, List.map_cons, List.sum_cons]
        omega
      · intro c
        rw [ihcam c, hcam c, List.filter_cons]
        by_cases hqc : q.1 = c
        · subst hqc
          simp [htq]
          omega
        · have hb : (q.1 == c) = false := beq_eq_false_iff_ne.mpr hqc
          simp [hb, hqc]
      · intro hn
        obtain ⟨hn2, hsum⟩ := hns hn
        obtain ⟨hn3, hsum2⟩ := ihns hn2
        refine ⟨hn3, ?_⟩
        rw [hsum2, hsum, List.map_cons, List.sum_cons, htq]
        simp only [Option.getD_some]
        omega

/-- One week of the monthly rollup: the overall counter gains the week's
daily infraction sum, each device entry gains its stored totals, the grand
per-device sum gains the week's stored totals. -/
theorem processMonthWeek_ok {md : MonthData} {w : Nat} {d : Option WeekData}
    {md2 : MonthData} (h : processMonthWeek md w d = Except.ok md2) :
    md2.total_infractions = md.total_infractions + periodDailyInfractions d
    ∧ (∀ c, camTotal md2.cameras c = camTotal md.cameras c + periodStoredFor d c)
    ∧ ((md.cameras.map Prod.fst).Nodup →
        (md2.cameras.map Prod.fst).Nodup
        ∧ sumTotals md2.cameras = sumTotals md.cameras + periodStoredTotals d) := by
  cases d with
  | none =>
    cases h
    exact ⟨by simp [periodDailyInfractions], fun c => by simp [periodStoredFor],
      fun hn => ⟨hn, by simp [periodStoredTotals]⟩⟩
  | some data =>
    cases hie : data.isEmpty with
    | true =>
      have hdata : data = [] := List.isEmpty_iff.mp hie
      unfold processMonthWeek at h
      dsimp only at h
      rw [hie] at h
      simp only [if_true] at h
      cases h
      subst hdata
      exact ⟨by simp [periodDailyInfractions], fun c => by simp [periodStoredFor],
        fun hn => ⟨hn, by simp [periodStoredTotals]⟩⟩
    | false =>
      unfold processMonthWeek at h
      dsimp only at h
      rw [hie] at h
      simp only [Bool.false_eq_true, if_false] at h
      cases hfold : data.foldlM (fun x p => processMonthCamera x p.1 p.2)
          ⟨md.cameras, md.daily_totals, 0, 0⟩ with
      | error e => rw [hfold] at h; simp at h
      | ok acc =>
        rw [hfold] at h
        simp only [okBind, Except.ok.injEq] at h
        obtain ⟨hwi, hcam, hns⟩ := foldMonthCameras_ok data
          ⟨md.cameras, md.daily_totals, 0, 0⟩ acc hfold
        subst h
        refine ⟨?_, ?_, ?_⟩
        · show md.total_infractions + acc.week_infractions = _
          rw [hwi]
          show md.total_infractions + (0 + _) = md.total_infractions + _
          rw [Int.zero_add]
          rfl
        · intro c
          exact hcam c
        · intro hn
          exact hns hn

/-- The whole monthly fold, relative to an arbitrary starting rollup. -/
theorem monthFold_props :
    ∀ (ps : Periods) (md0 md : MonthData),
      ps.foldlM (fun x p => processMonthWeek x p.1 p.2) md0 = Except.ok md →
      md.total_infractions = md0.total_infractions + allDailyInfractions ps
      ∧ (∀ c, camTotal md.cameras c = camTotal md0.cameras c + storedTotalsPeriods ps c)
      ∧ ((md0.cameras.map Prod.fst).Nodup →
          (md.cameras.map Prod.fst).Nodup
          ∧ sumTotals md.cameras = sumTotals md0.cameras + allStoredTotals ps) := by
  intro ps
  induction ps with
  | nil =>
    intro md0 md h
    rw [List.foldlM_nil] at h
    cases h
    exact ⟨by simp [allDailyInfractions], fun c => by simp [storedTotalsPeriods],
      fun hn => ⟨hn, by simp [allStoredTotals]⟩⟩
  | cons x ps ih =>
    intro md0 md h
    rw [List.foldlM_cons] at h
    cases hstep : processMonthWeek md0 x.1 x.2 with
    | error e => rw [hstep] at h; simp at h
    | ok mid =>
      rw [hstep] at h
      simp only [okBind] at h
      obtain ⟨hti, hcam, hns⟩ := processMonthWeek_ok hstep
      obtain ⟨ihti, ihcam, ihns⟩ := ih mid md h
      refine ⟨?_, ?_, ?_⟩
      · rw [ihti, hti]
        have hx : allDailyInfractions (x :: ps)
            = periodDailyInfractions x.2 + allDailyInfractions ps := by
          unfold allDailyInfractions
          rw [List.map_cons, List.sum_cons]
        rw [hx]
        omega
      · intro c
        rw [ihcam c, hcam c]
        have hx : storedTotalsPeriods (x :: ps) c
            = periodStoredFor x.2 c + storedTotalsPeriods ps c := by
          unfold storedTotalsPeriods
          rw [List.map_cons, List.sum_cons]
        rw [hx]
        omega
      · intro hn
        obtain ⟨hn2, hsum⟩ := hns hn
        obtain ⟨hn3, hsum2⟩ := ihns hn2
        refine ⟨hn3, ?_⟩
        have hx : allStoredTotals (x :: ps)
            = periodStoredTotals x.2 + allStoredTotals ps := by
          unfold allStoredTotals
          rw [List.map_cons, List.sum_cons]
        rw [hsum2, hsum, hx]
        omega

/-- When every observation's stored total matches its own daily breakdown,
the stored-total grand sum and the daily grand sum coincide. -/
theorem stored_eq_daily (ps : Periods)
    (hmatch : ∀ (w : Nat) (data : WeekData) (cid : String) (cd : CameraData),
      (w, some data) ∈ ps → (cid, cd) ∈ data →
      cd.total = some (sumValues (cd.infractions.getD []))) :
    allStoredTotals ps = allDailyInfractions ps := by
  unfold allStoredTotals allDailyInfractions
  apply congrArg List.sum
  apply List.map_congr_left
  intro x hx
  cases hd : x.2 with
  | none => rfl
  | some data =>
    show ((data.map fun q => q.2.total.getD 0)).sum
        = ((data.map fun p => sumValues (p.2.infractions.getD []))).sum
    apply congrArg List.sum
    apply List.map_congr_left
    intro q hq
    have hx2 : (x.1, some data) ∈ ps := by
      rw [show (x.1, some data) = x from by rw [← hd]]
      exact hx
    have ht := hmatch x.1 data q.1 q.2 hx2
      (by rw [show (q.1, q.2) = q from rfl]; exact hq)
    rw [ht, Option.getD_some]

/-- **C10** (amended): in the monthly rollup the overall total-infractions
figure is the sum of all daily infraction-map entries across every device
and present period, whereas each device's per-device total is the sum of
that device's stored per-period `total` fields; when every stored total
matches the sum of its own daily map the two figures agree (this is
sufficient but, because mismatches can cancel, not necessary), and for some
input where a stored total disagrees with its daily breakdown the two
figures differ. -/
theorem monthly_totals (ps : Periods) (md : MonthData)
    (h : get_monthly_report ps = Except.ok md) :
    md.total_infractions = allDailyInfractions ps
    ∧ (∀ c, camTotal md.cameras c = storedTotalsPeriods ps c)
    ∧ ((∀ (w : Nat) (data : WeekData) (cid : String) (cd : CameraData),
          (w, some data) ∈ ps → (cid, cd) ∈ data →
          cd.total = some (sumValues (cd.infractions.getD []))) →
        md.total_infractions = sumTotals md.cameras) := by
  obtain ⟨h1, h2, h3⟩ := monthFold_props ps ⟨0, 0, [], [], []⟩ md h
  obtain ⟨hnodup, hsum⟩ := h3 (by simp)
  refine ⟨?_, ?_, ?_⟩
  · rw [h1]
    exact Int.zero_add _
  · intro c
    exact (h2 c).trans (Int.zero_add _)
  · intro hmatch
    rw [h1, hsum, stored_eq_daily ps hmatch]
    rfl

/-- A camera whose stored total (5) exceeds its daily breakdown (4). -/
def c10camA : CameraData :=
  ⟨some "A", none, none, some 5, some [("2024-01-01", 4)], none⟩

/-- A camera whose stored total (3) falls short of its daily breakdown (4). -/
def c10camB : CameraData :=
  ⟨some "B", none, none, some 3, some [("2024-01-01", 4)], none⟩

/-- The single-week input used by the C10 witness: stored total 7, daily
breakdown summing to 4. -/
def c10ps : Periods :=
  [(1, some [("A", ⟨some "A", none, none, some 7, some [("2024-01-01", 4)], none⟩)])]

/-- Witness for C10: on `c10ps` the overall figure is the daily sum 4, the
per-device figure is the stored 7, and they differ. -/
theorem monthly_totals_witness :
    (4 : Int) = allDailyInfractions c10ps
    ∧ camTotal [("A", ⟨"A", 7, 0, 1⟩)] "A" = storedTotalsPeriods c10ps "A"
    ∧ (4 : Int) ≠ 7 :=
  have hp := monthly_totals c10ps
    ⟨4, 0, [("A", ⟨"A", 7, 0, 1⟩)], [("2024-01-01", ⟨4, 0⟩)], [⟨1, 4, 0⟩]⟩ rfl
  ⟨hp.1, hp.2.1 "A", by decide⟩

/-- Counterexample to C10's "only when" direction: two cameras whose stored
totals (5 and 3) both disagree with their daily breakdowns (4 and 4), yet
the mismatches cancel: the overall daily figure 8 equals the per-device
stored sum 5 + 3.  Agreement of the two figures therefore does not require
every stored total to match its own daily map. -/
theorem monthly_totals_agree_despite_mismatch :
    get_monthly_report [(1, some [("A", c10camA), ("B", c10camB)])]
      = Except.ok ⟨8, 0, [("A", ⟨"A", 5, 0, 1⟩), ("B", ⟨"B", 3, 0, 1⟩)],
          [("2024-01-01", ⟨8, 0⟩)], [⟨1, 8, 0⟩]⟩
    ∧ (8 : Int) = 5 + 3
    ∧ c10camA.total = some 5
    ∧ sumValues (c10camA.infractions.getD []) = 4
    ∧ (5 : Int) ≠ 4 :=
  ⟨rfl, rfl, rfl, rfl, by decide⟩
